import Mathlib

/-!
Verification of the tinyclaw agent orchestration core.

Rust strings are modelled as `List Char` (named `Str`); machine integers as
`Nat`; fallible operations as `Option`/`Except`.  Network and filesystem
effects are made explicit: streaming providers consume a list of chunks and
emit a trace of channel sends and usage-tracker additions, and the file-patch
tool reports the content it writes (if any) alongside its `ToolResult`.
-/

set_option maxRecDepth 10000

namespace Tinyclaw

/-- Rust `&str`/`String`, modelled as a list of characters. -/
abbrev Str := List Char

/-- Convert a Lean string literal into the model representation. -/
def strL (s : String) : Str := s.toList

/-- ASCII whitespace recognition, modelling `char::is_whitespace` on the
character set exercised by this code base. -/
def isWs (c : Char) : Bool :=
  c = ' ' || c = '\t' || c = '\n' || c = '\r'

/-- Rust `str::trim_start`. -/
def trimStart : Str → Str
  | [] => []
  | c :: cs => if isWs c then trimStart cs else c :: cs

/-- Rust `str::trim_end`. -/
def trimEnd (s : Str) : Str :=
  (trimStart s.reverse).reverse

/-- Rust `str::trim`. -/
def trim (s : Str) : Str :=
  trimEnd (trimStart s)

/-- Rust `str::trim_end_matches('\r')`: drop every trailing `'\r'`. -/
def trimEndCr (s : Str) : Str :=
  (s.reverse.dropWhile (· = '\r')).reverse

/-- Split a buffer at its first `'\n'`: `some (line, rest)` when a newline is
present, `none` otherwise.  Models the `buffer.find('\n')` slicing used by the
SSE loops. -/
def splitNl : Str → Option (Str × Str)
  | [] => none
  | c :: cs =>
    if c = '\n' then some ([], cs)
    else (splitNl cs).map (fun p => (c :: p.1, p.2))

theorem splitNl_eq {s l r : Str} (h : splitNl s = some (l, r)) :
    s = l ++ '\n' :: r ∧ '\n' ∉ l := by
  induction s generalizing l r with
  | nil => simp [splitNl] at h
  | cons c cs ih =>
    simp only [splitNl] at h
    split at h
    · rename_i hc
      cases h
      simp [hc]
    · rename_i hc
      cases h' : splitNl cs with
      | none => rw [h'] at h; simp at h
      | some p =>
        rw [h'] at h
        simp only [Option.map_some', Option.some.injEq] at h
        cases h
        obtain ⟨he, hm⟩ := ih h'
        constructor
        · simp [he]
        · simp only [List.mem_cons, not_or]
          exact ⟨fun hh => hc hh.symm, hm⟩

theorem splitNl_length {s l r : Str} (h : splitNl s = some (l, r)) :
    r.length < s.length := by
  have := (splitNl_eq h).1
  subst this
  simp
  omega

theorem splitNl_none {s : Str} (h : splitNl s = none) : '\n' ∉ s := by
  induction s with
  | nil => simp
  | cons c cs ih =>
    simp only [splitNl] at h
    split at h
    · simp at h
    · rename_i hc
      cases h' : splitNl cs with
      | none =>
        simp only [List.mem_cons, not_or]
        exact ⟨fun hh => hc hh.symm, ih h'⟩
      | some p => rw [h'] at h; simp at h

theorem splitNl_none_of_not_mem {s : Str} (h : '\n' ∉ s) : splitNl s = none := by
  induction s with
  | nil => rfl
  | cons c cs ih =>
    simp only [List.mem_cons, not_or] at h
    simp only [splitNl]
    rw [if_neg (fun hh => h.1 hh.symm), ih h.2]
    rfl

def completeLinesAux : Nat → Str → List Str
  | 0, _ => []
  | fuel + 1, s =>
    match splitNl s with
    | none => []
    | some (l, r) => l :: completeLinesAux fuel r

/-- The complete (newline-terminated) lines of a buffer, in order.  Defined
through a structural fuel bounded by the buffer length so that concrete
instances evaluate by kernel reduction. -/
def completeLines (s : Str) : List Str := completeLinesAux s.length s

theorem completeLinesAux_irrel :
    ∀ (f₁ f₂ : Nat) (s : Str), s.length ≤ f₁ → s.length ≤ f₂ →
      completeLinesAux f₁ s = completeLinesAux f₂ s := by
  intro f₁
  induction f₁ with
  | zero =>
    intro f₂ s h1 _
    have hnil : s = [] := List.length_eq_zero.mp (by omega)
    subst hnil
    cases f₂ with
    | zero => rfl
    | succ m => simp [completeLinesAux, splitNl]
  | succ n ih =>
    intro f₂ s h1 h2
    cases f₂ with
    | zero =>
      have hnil : s = [] := List.length_eq_zero.mp (by omega)
      subst hnil
      simp [completeLinesAux, splitNl]
    | succ m =>
      cases hs : splitNl s with
      | none => simp [completeLinesAux, hs]
      | some p =>
        obtain ⟨l, r⟩ := p
        have hr := splitNl_length hs
        simp only [completeLinesAux, hs]
        rw [ih m r (by omega) (by omega)]

theorem completeLines_none {s : Str} (h : splitNl s = none) :
    completeLines s = [] := by
  unfold completeLines
  cases hn : s.length with
  | zero => rfl
  | succ n => simp [completeLinesAux, h]

theorem completeLines_some {s l r : Str} (h : splitNl s = some (l, r)) :
    completeLines s = l :: completeLines r := by
  have hlen := splitNl_length h
  unfold completeLines
  obtain ⟨n, hn⟩ : ∃ n, s.length = n + 1 := ⟨s.length - 1, by omega⟩
  rw [hn]
  simp only [completeLinesAux, h]
  rw [completeLinesAux_irrel n r.length r (by omega) le_rfl]

/-- Rust `str::find(pattern)`: index of the first occurrence of `pat` in
`hay`, if any. -/
def findSub (hay pat : Str) : Option Nat :=
  if pat.isPrefixOf hay then some 0
  else
    match hay with
    | [] => none
    | _ :: t => (findSub t pat).map (· + 1)

/-- Whether `pat` occurs as a contiguous substring of `hay`. -/
def containsSub (hay pat : Str) : Bool :=
  (findSub hay pat).isSome

theorem findSub_some {hay pat : Str} {i : Nat} (h : findSub hay pat = some i) :
    pat <+: hay.drop i ∧ ∀ j < i, ¬ pat <+: hay.drop j := by
  induction hay generalizing i with
  | nil =>
    simp only [findSub] at h
    split at h
    · rename_i hp
      cases h
      exact ⟨List.isPrefixOf_iff_prefix.mp hp, by omega⟩
    · simp at h
  | cons c t ih =>
    simp only [findSub] at h
    split at h
    · rename_i hp
      cases h
      exact ⟨List.isPrefixOf_iff_prefix.mp hp, by omega⟩
    · rename_i hp
      cases h' : findSub t pat with
      | none => rw [h'] at h; simp at h
      | some k =>
        rw [h'] at h
        simp only [Option.map_some', Option.some.injEq] at h
        subst h
        obtain ⟨h1, h2⟩ := ih h'
        refine ⟨by simpa using h1, ?_⟩
        intro j hj
        match j with
        | 0 =>
          simp only [List.drop_zero]
          exact fun hc => hp (List.isPrefixOf_iff_prefix.mpr hc)
        | j + 1 =>
          simp only [List.drop_succ_cons]
          exact h2 j (by omega)

theorem findSub_of {hay pat : Str} {i : Nat} (h1 : pat <+: hay.drop i)
    (h2 : ∀ j < i, ¬ pat <+: hay.drop j) : findSub hay pat = some i := by
  induction hay generalizing i with
  | nil =>
    have hi : i = 0 := by
      by_contra hne
      exact h2 0 (by omega) (by simpa using h1)
    subst hi
    simp only [List.drop_zero] at h1
    simp only [findSub, if_pos (List.isPrefixOf_iff_prefix.mpr h1)]
  | cons c t ih =>
    match i with
    | 0 =>
      simp only [List.drop_zero] at h1
      simp only [findSub, if_pos (List.isPrefixOf_iff_prefix.mpr h1)]
    | i + 1 =>
      have hnp : ¬ pat.isPrefixOf (c :: t) := by
        intro hc
        exact h2 0 (by omega) (by simpa using List.isPrefixOf_iff_prefix.mp hc)
      simp only [findSub, if_neg hnp]
      rw [ih (by simpa using h1) (fun j hj => by
        have := h2 (j + 1) (by omega)
        simpa using this)]
      rfl

theorem findSub_le {hay pat : Str} {i : Nat} (h : findSub hay pat = some i) :
    i + pat.length ≤ hay.length := by
  have h1 := (findSub_some h).1
  have h2 := h1.length_le
  simp only [List.length_drop] at h2
  by_cases hi : i ≤ hay.length
  · omega
  · exfalso
    have : hay.drop i = [] := List.drop_eq_nil_of_le (by omega)
    rw [this] at h1
    have : pat = [] := List.prefix_nil.mp h1
    subst this
    have : findSub hay [] = some 0 := by
      cases hay <;> simp [findSub, List.isPrefixOf]
    rw [this] at h
    cases h
    omega

theorem prefix_append_right_iff {p a : Str} (y : Str) (h : p.length ≤ a.length) :
    p <+: a ++ y ↔ p <+: a := by
  constructor
  · intro hp
    rw [List.prefix_iff_eq_take] at hp ⊢
    rwa [List.take_append_of_le_length h] at hp
  · intro hp
    exact hp.trans (List.prefix_append a y)

/-- If the first occurrence of `pat` in `x` lies entirely inside `x`
(it always does), it is also the first occurrence in `x ++ y`. -/
theorem findSub_append_of_findSub {x pat : Str} {i : Nat} (y : Str)
    (h : findSub x pat = some i) : findSub (x ++ y) pat = some i := by
  obtain ⟨h1, h2⟩ := findSub_some h
  have hle := findSub_le h
  apply findSub_of
  · rw [List.drop_append_of_le_length (by omega)]
    exact h1.trans (List.prefix_append _ y)
  · intro j hj
    rw [List.drop_append_of_le_length (by omega)]
    rw [prefix_append_right_iff y (by simp; omega)]
    exact h2 j hj

theorem findSub_prefix {pat rest : Str} : findSub (pat ++ rest) pat = some 0 := by
  apply findSub_of
  · simpa using List.prefix_append pat rest
  · omega

def countMatchesAux (pat : Str) : Nat → Str → Nat
  | 0, hay => if pat = [] then hay.length + 1 else 0
  | fuel + 1, hay =>
    if pat = [] then hay.length + 1
    else match hay with
      | [] => 0
      | c :: t =>
        if pat.isPrefixOf (c :: t) then
          1 + countMatchesAux pat fuel (t.drop (pat.length - 1))
        else countMatchesAux pat fuel t

/-- Rust `str::matches(pat).count()`: number of non-overlapping occurrences,
scanning left to right; the empty pattern matches at every boundary.  In the
match branch the scan resumes after the occurrence (for a non-empty `pat`,
`(c :: t).drop pat.length = t.drop (pat.length - 1)`); a structural fuel
bounded by the haystack length keeps concrete instances kernel-reducible. -/
def countMatches (hay pat : Str) : Nat := countMatchesAux pat hay.length hay

theorem countMatchesAux_irrel (pat : Str) :
    ∀ (f₁ f₂ : Nat) (hay : Str), hay.length ≤ f₁ → hay.length ≤ f₂ →
      countMatchesAux pat f₁ hay = countMatchesAux pat f₂ hay := by
  intro f₁
  induction f₁ with
  | zero =>
    intro f₂ hay h1 _
    have hnil : hay = [] := List.length_eq_zero.mp (by omega)
    subst hnil
    cases f₂ with
    | zero => rfl
    | succ m => by_cases hpat : pat = [] <;> simp [countMatchesAux, hpat]
  | succ n ih =>
    intro f₂ hay h1 h2
    cases f₂ with
    | zero =>
      have hnil : hay = [] := List.length_eq_zero.mp (by omega)
      subst hnil
      by_cases hpat : pat = [] <;> simp [countMatchesAux, hpat]
    | succ m =>
      by_cases hpat : pat = []
      · simp [countMatchesAux, hpat]
      · cases hay with
        | nil => simp [countMatchesAux, hpat]
        | cons c t =>
          simp only [countMatchesAux, if_neg hpat]
          simp only [List.length_cons] at h1 h2
          by_cases hp : pat.isPrefixOf (c :: t)
          · rw [if_pos hp, if_pos hp,
              ih m (t.drop (pat.length - 1)) (by simp; omega) (by simp; omega)]
          · rw [if_neg hp, if_neg hp, ih m t (by omega) (by omega)]

theorem countMatches_empty_pat (hay : Str) :
    countMatches hay [] = hay.length + 1 := by
  unfold countMatches
  cases hn : hay.length <;> simp [countMatchesAux, hn]

theorem countMatches_nil {pat : Str} (h : pat ≠ []) :
    countMatches [] pat = 0 := by
  unfold countMatches
  simp [countMatchesAux, h]

theorem countMatches_cons_pos {pat : Str} {c : Char} {t : Str}
    (hpat : pat ≠ []) (hp : pat.isPrefixOf (c :: t)) :
    countMatches (c :: t) pat = 1 + countMatches ((c :: t).drop pat.length) pat := by
  obtain ⟨p, ps, hps⟩ : ∃ p ps, pat = p :: ps := by
    cases pat with
    | nil => exact absurd rfl hpat
    | cons p ps => exact ⟨p, ps, rfl⟩
  subst hps
  unfold countMatches
  simp only [List.length_cons, List.drop_succ_cons, Nat.add_sub_cancel,
    countMatchesAux, if_neg hpat, if_pos hp]
  congr 1
  exact countMatchesAux_irrel (p :: ps) t.length (t.drop ps.length).length
    (t.drop ps.length) (by simp) le_rfl

theorem countMatches_cons_neg {pat : Str} {c : Char} {t : Str}
    (hpat : pat ≠ []) (hp : ¬ pat.isPrefixOf (c :: t)) :
    countMatches (c :: t) pat = countMatches t pat := by
  unfold countMatches
  simp only [List.length_cons, countMatchesAux, if_neg hpat, if_neg hp]

/-- Rust `str::replacen(pat, repl, 1)`: replace the first occurrence only. -/
def replaceFirst (hay pat repl : Str) : Str :=
  if pat.isPrefixOf hay then repl ++ hay.drop pat.length
  else match hay with
    | [] => []
    | c :: t => c :: replaceFirst t pat repl

/-- A unique match decomposes the haystack, and `replaceFirst` rewrites
exactly that occurrence. -/
theorem prefix_decomp {pat hay : Str} (hp : pat <+: hay) :
    hay = pat ++ hay.drop pat.length := by
  rw [List.prefix_iff_eq_take] at hp
  conv_lhs => rw [← List.take_append_drop pat.length hay, ← hp]

theorem replaceFirst_of_count_one {hay pat repl : Str}
    (h : countMatches hay pat = 1) :
    ∃ pre post, hay = pre ++ pat ++ post ∧
      replaceFirst hay pat repl = pre ++ repl ++ post := by
  induction hay with
  | nil =>
    by_cases hpat : pat = []
    · subst hpat
      exact ⟨[], [], by simp, by simp [replaceFirst, List.isPrefixOf]⟩
    · rw [countMatches_nil hpat] at h
      cases h
  | cons c t ih =>
    by_cases hpat : pat = []
    · subst hpat
      rw [countMatches_empty_pat] at h
      simp at h
    · by_cases hp : pat.isPrefixOf (c :: t)
      · refine ⟨[], (c :: t).drop pat.length, ?_, ?_⟩
        · simpa using prefix_decomp (List.isPrefixOf_iff_prefix.mp hp)
        · rw [replaceFirst, if_pos hp]
          simp
      · rw [countMatches_cons_neg hpat hp] at h
        obtain ⟨pre, post, hdec, hrep⟩ := ih h
        refine ⟨c :: pre, post, by simp [hdec], ?_⟩
        rw [replaceFirst, if_neg hp, hrep]
        simp

/-- Decimal rendering of a natural number (Rust's `{}` formatting for the
match count). -/
def natToStr (n : Nat) : Str := (toString n).toList

/-! ### JSON values (`serde_json::Value`)

Numbers keep their lexeme verbatim: no claim inspects a numeric value other
than through the `u64` decoding used for usage counters. -/

inductive Json where
  | null
  | bool (b : Bool)
  | num (lexeme : Str)
  | str (s : Str)
  | arr (elems : List Json)
  | obj (fields : List (Str × Json))

/-- `serde_json::Value::get(key)`: field lookup, `None` on non-objects. -/
def Json.get (v : Json) (key : Str) : Option Json :=
  match v with
  | .obj fields => (fields.find? (fun f => f.1 == key)).map (·.2)
  | _ => none

/-- `serde_json::Value::as_str`. -/
def Json.asStr : Json → Option Str
  | .str s => some s
  | _ => none

/-- Decode a JSON value as a `u64` the way serde does for the usage counter
fields: only a non-negative integer literal qualifies. -/
def Json.asU64 : Json → Option Nat
  | .num lexeme =>
    if lexeme ≠ [] ∧ lexeme.all (·.isDigit) then
      some (lexeme.foldl (fun acc c => acc * 10 + (c.toNat - '0'.toNat)) 0)
    else none
  | _ => none

/-- JSON insignificant whitespace. -/
def skipWs (s : Str) : Str := s.dropWhile isWs

def hexVal (c : Char) : Option Nat :=
  if '0' ≤ c ∧ c ≤ '9' then some (c.toNat - '0'.toNat)
  else if 'a' ≤ c ∧ c ≤ 'f' then some (c.toNat - 'a'.toNat + 10)
  else if 'A' ≤ c ∧ c ≤ 'F' then some (c.toNat - 'A'.toNat + 10)
  else none

/-- Decoding of a single-character JSON escape. -/
def escChar (e : Char) : Option Char :=
  if e = '"' then some '"'
  else if e = '\\' then some '\\'
  else if e = '/' then some '/'
  else if e = 'b' then some (Char.ofNat 8)
  else if e = 'f' then some (Char.ofNat 12)
  else if e = 'n' then some '\n'
  else if e = 'r' then some '\r'
  else if e = 't' then some '\t'
  else none

/-- Body of a JSON string literal, after the opening quote: returns the
decoded characters and the input following the closing quote. -/
def parseStringBody : Str → Option (Str × Str)
  | [] => none
  | '"' :: rest => some ([], rest)
  | '\\' :: 'u' :: h1 :: h2 :: h3 :: h4 :: rest =>
    (match hexVal h1, hexVal h2, hexVal h3, hexVal h4 with
     | some v1, some v2, some v3, some v4 =>
       let code := ((v1 * 16 + v2) * 16 + v3) * 16 + v4
       if 0xD800 ≤ code ∧ code ≤ 0xDFFF then none
       else
         match parseStringBody rest with
         | some p => some (Char.ofNat code :: p.1, p.2)
         | none => none
     | _, _, _, _ => none)
  | '\\' :: e :: rest =>
    (match escChar e with
     | some d =>
       match parseStringBody rest with
       | some p => some (d :: p.1, p.2)
       | none => none
     | none => none)
  | c :: rest =>
    if c.toNat < 0x20 then none
    else
      match parseStringBody rest with
      | some p => some (c :: p.1, p.2)
      | none => none

/-- Numeric literal lexeme: `-?digits(.digits)?([eE][+-]?digits)?`. -/
def parseNumberLexeme (s : Str) : Option (Str × Str) :=
  let (sign, s1) : Str × Str :=
    match s with
    | '-' :: t => (['-'], t)
    | _ => (([] : Str), s)
  let intPart := s1.takeWhile (·.isDigit)
  let s2 := s1.dropWhile (·.isDigit)
  if intPart = [] then none
  else
    let (fracPart, s3) : Str × Str :=
      match s2 with
      | '.' :: t =>
        let d := t.takeWhile (·.isDigit)
        if d = [] then (([] : Str), s2) else ('.' :: d, t.dropWhile (·.isDigit))
      | _ => (([] : Str), s2)
    let (expPart, s4) : Str × Str :=
      match s3 with
      | e :: t =>
        if e = 'e' ∨ e = 'E' then
          let (es, t1) : Str × Str :=
            match t with
            | '+' :: t' => (['+'], t')
            | '-' :: t' => (['-'], t')
            | _ => (([] : Str), t)
          let d := t1.takeWhile (·.isDigit)
          if d = [] then (([] : Str), s3)
          else (e :: (es ++ d), t1.dropWhile (·.isDigit))
        else (([] : Str), s3)
      | _ => (([] : Str), s3)
    some (sign ++ intPart ++ fracPart ++ expPart, s4)

mutual

/-- Recursive-descent JSON value parser (shallow model of
`serde_json::from_str`); `fuel` bounds nesting depth. -/
def parseValue (fuel : Nat) (s : Str) : Option (Json × Str) :=
  match fuel with
  | 0 => none
  | fuel + 1 =>
    match skipWs s with
    | [] => none
    | c :: rest =>
      if c = 'n' then
        if ['u','l','l'].isPrefixOf rest then some (.null, rest.drop 3) else none
      else if c = 't' then
        if ['r','u','e'].isPrefixOf rest then some (.bool true, rest.drop 3) else none
      else if c = 'f' then
        if ['a','l','s','e'].isPrefixOf rest then some (.bool false, rest.drop 4) else none
      else if c = '"' then
        match parseStringBody rest with
        | some p => some (.str p.1, p.2)
        | none => none
      else if c = '{' then
        match skipWs rest with
        | '}' :: rest' => some (.obj [], rest')
        | _ =>
          match parseMembers fuel rest [] with
          | some p => some (.obj p.1, p.2)
          | none => none
      else if c = '[' then
        match skipWs rest with
        | ']' :: rest' => some (.arr [], rest')
        | _ =>
          match parseElements fuel rest with
          | some p => some (.arr p.1, p.2)
          | none => none
      else if c = '-' ∨ c.isDigit then
        match parseNumberLexeme (c :: rest) with
        | some p => some (.num p.1, p.2)
        | none => none
      else none

/-- Object members after `{` (at least one member present). -/
def parseMembers (fuel : Nat) (s : Str) (acc : List (Str × Json)) :
    Option (List (Str × Json) × Str) :=
  match fuel with
  | 0 => none
  | fuel + 1 =>
    match skipWs s with
    | '"' :: rest =>
      match parseStringBody rest with
      | none => none
      | some (key, rest') =>
        match skipWs rest' with
        | ':' :: rest'' =>
          match parseValue fuel rest'' with
          | none => none
          | some (v, rest''') =>
            -- serde's map insert overwrites duplicate keys
            let acc' := (acc.filter (fun f => f.1 ≠ key)) ++ [(key, v)]
            match skipWs rest''' with
            | ',' :: rest4 => parseMembers fuel rest4 acc'
            | '}' :: rest4 => some (acc', rest4)
            | _ => none
        | _ => none
    | _ => none

/-- Array elements after `[` (at least one element present). -/
def parseElements (fuel : Nat) (s : Str) : Option (List Json × Str) :=
  match fuel with
  | 0 => none
  | fuel + 1 =>
    match parseValue fuel s with
    | none => none
    | some (v, rest) =>
      match skipWs rest with
      | ',' :: rest' =>
        match parseElements fuel rest' with
        | some p => some (v :: p.1, p.2)
        | none => none
      | ']' :: rest' => some ([v], rest')
      | _ => none

end

/-- `serde_json::from_str::<serde_json::Value>`: parse a complete JSON
document (trailing whitespace allowed). -/
def jsonParse (s : Str) : Option Json :=
  match parseValue (s.length + 1) s with
  | some (v, rest) => if skipWs rest = [] then some v else none
  | none => none

/-! ### Generic SSE line machine

Both streaming loops share the same shape: append the incoming chunk to a
buffer, then repeatedly cut the buffer at the first `'\n'` and process the
line, until no newline remains or a distinguished stop line is hit.  `drain`
captures one pass of the inner `while let Some(line_end) = buffer.find('\n')`
loop; the returned `Bool` records whether the pass ended on a stop line. -/

structure LineProc (σ : Type) where
  isStop : Str → Bool
  onStop : σ → Str → σ
  step : σ → Str → σ

variable {σ : Type}

def drainAux (P : LineProc σ) : Nat → Str → σ → Str × σ × Bool
  | 0, buf, s => (buf, s, false)
  | fuel + 1, buf, s =>
    match splitNl buf with
    | none => (buf, s, false)
    | some (l, r) =>
      if P.isStop l then (r, P.onStop s l, true)
      else drainAux P fuel r (P.step s l)

/-- Drain the buffer: structural fuel bounded by the buffer length (one
line is consumed per step), so concrete runs evaluate by kernel
reduction. -/
def drain (P : LineProc σ) (buf : Str) (s : σ) : Str × σ × Bool :=
  drainAux P buf.length buf s

theorem drainAux_irrel (P : LineProc σ) :
    ∀ (f₁ f₂ : Nat) (buf : Str) (s : σ), buf.length ≤ f₁ → buf.length ≤ f₂ →
      drainAux P f₁ buf s = drainAux P f₂ buf s := by
  intro f₁
  induction f₁ with
  | zero =>
    intro f₂ buf s h1 _
    have hnil : buf = [] := List.length_eq_zero.mp (by omega)
    subst hnil
    cases f₂ with
    | zero => rfl
    | succ m => simp [drainAux, splitNl]
  | succ n ih =>
    intro f₂ buf s h1 h2
    cases f₂ with
    | zero =>
      have hnil : buf = [] := List.length_eq_zero.mp (by omega)
      subst hnil
      simp [drainAux, splitNl]
    | succ m =>
      cases hs : splitNl buf with
      | none => simp [drainAux, hs]
      | some p =>
        obtain ⟨l, r⟩ := p
        have hr := splitNl_length hs
        simp only [drainAux, hs]
        by_cases hstop : P.isStop l = true
        · simp [hstop]
        · rw [if_neg (by simp [hstop]), if_neg (by simp [hstop]),
            ih m r (P.step s l) (by omega) (by omega)]

/-- No complete line of `b` is a stop line. -/
def noStop (P : LineProc σ) (b : Str) : Prop :=
  ∀ l ∈ completeLines b, P.isStop l = false

instance (P : LineProc σ) (b : Str) : Decidable (noStop P b) := by
  unfold noStop
  infer_instance

theorem splitNl_of {l : Str} (t : Str) (hm : '\n' ∉ l) :
    splitNl (l ++ '\n' :: t) = some (l, t) := by
  induction l with
  | nil => simp [splitNl]
  | cons x xs ih =>
    simp only [List.mem_cons, not_or] at hm
    simp only [List.cons_append, splitNl]
    rw [if_neg (fun hh => hm.1 hh.symm), List.append_eq, ih hm.2]
    rfl

theorem splitNl_append_some {b l r : Str} (c : Str) (h : splitNl b = some (l, r)) :
    splitNl (b ++ c) = some (l, r ++ c) := by
  obtain ⟨he, hm⟩ := splitNl_eq h
  subst he
  rw [List.append_assoc, List.cons_append]
  exact splitNl_of (r ++ c) hm

theorem drain_none {P : LineProc σ} {b : Str} {s : σ} (h : splitNl b = none) :
    drain P b s = (b, s, false) := by
  unfold drain
  cases hn : b.length with
  | zero => rfl
  | succ n => simp [drainAux, h]

theorem drain_some_stop {P : LineProc σ} {b l r : Str} {s : σ}
    (h : splitNl b = some (l, r)) (hstop : P.isStop l = true) :
    drain P b s = (r, P.onStop s l, true) := by
  have hlen := splitNl_length h
  unfold drain
  obtain ⟨n, hn⟩ : ∃ n, b.length = n + 1 := ⟨b.length - 1, by omega⟩
  rw [hn]
  simp [drainAux, h, hstop]

theorem drain_some_go {P : LineProc σ} {b l r : Str} {s : σ}
    (h : splitNl b = some (l, r)) (hstop : P.isStop l = false) :
    drain P b s = drain P r (P.step s l) := by
  have hlen := splitNl_length h
  unfold drain
  obtain ⟨n, hn⟩ : ∃ n, b.length = n + 1 := ⟨b.length - 1, by omega⟩
  rw [hn]
  simp only [drainAux, h]
  rw [if_neg (by simp [hstop])]
  exact drainAux_irrel P n r.length r (P.step s l) (by omega) le_rfl

theorem completeLines_sub (x y : Str) :
    completeLines x <+: completeLines (x ++ y) := by
  induction' hn : x.length using Nat.strong_induction_on with n ih generalizing x
  ·
    cases hs : splitNl x with
    | none => rw [completeLines_none hs]; exact List.nil_prefix
    | some p =>
      obtain ⟨l, r⟩ := p
      rw [completeLines_some hs, completeLines_some (splitNl_append_some y hs)]
      have hr := splitNl_length hs
      exact List.cons_prefix_cons.mpr ⟨rfl, ih r.length (by omega) r rfl⟩

/-- Draining consumes leading complete lines: whatever follows the remaining
buffer still splits into a suffix of the original line sequence. -/
theorem drain_decomp {P : LineProc σ} (y : Str) :
    ∀ {b s b₁ s₁ f}, drain P b s = (b₁, s₁, f) →
      completeLines (b₁ ++ y) <:+ completeLines (b ++ y) := by
  intro b
  induction' hn : b.length using Nat.strong_induction_on with n ih generalizing b
  ·
    intro s b₁ s₁ f h
    cases hs : splitNl b with
    | none =>
      rw [drain_none hs] at h
      cases h
      exact List.suffix_refl _
    | some p =>
      obtain ⟨l, r⟩ := p
      have hr := splitNl_length hs
      by_cases hstop : P.isStop l = true
      · rw [drain_some_stop hs hstop] at h
        cases h
        rw [completeLines_some (splitNl_append_some y hs)]
        exact (List.suffix_cons _ _).trans (List.suffix_refl _) |>.trans
          (List.suffix_refl _)
      · have hstop' : P.isStop l = false := by simpa using hstop
        rw [drain_some_go hs hstop'] at h
        have := ih r.length (by omega) rfl h
        rw [completeLines_some (splitNl_append_some y hs)]
        exact this.trans (List.suffix_cons _ _)

theorem drain_append_false {P : LineProc σ} (c : Str) :
    ∀ {b s b₁ s₁}, drain P b s = (b₁, s₁, false) →
      drain P (b ++ c) s = drain P (b₁ ++ c) s₁ := by
  intro b
  induction' hn : b.length using Nat.strong_induction_on with n ih generalizing b
  ·
    intro s b₁ s₁ h
    cases hs : splitNl b with
    | none =>
      rw [drain_none hs] at h
      cases h
      rfl
    | some p =>
      obtain ⟨l, r⟩ := p
      have hr := splitNl_length hs
      by_cases hstop : P.isStop l = true
      · rw [drain_some_stop hs hstop] at h
        simp at h
      · have hstop' : P.isStop l = false := by simpa using hstop
        rw [drain_some_go hs hstop'] at h
        rw [drain_some_go (splitNl_append_some c hs) hstop']
        exact ih r.length (by omega) rfl h

theorem drain_append_true {P : LineProc σ} (c : Str) :
    ∀ {b s b₁ s₁}, drain P b s = (b₁, s₁, true) →
      drain P (b ++ c) s = (b₁ ++ c, s₁, true) := by
  intro b
  induction' hn : b.length using Nat.strong_induction_on with n ih generalizing b
  ·
    intro s b₁ s₁ h
    cases hs : splitNl b with
    | none =>
      rw [drain_none hs] at h
      simp at h
    | some p =>
      obtain ⟨l, r⟩ := p
      have hr := splitNl_length hs
      by_cases hstop : P.isStop l = true
      · rw [drain_some_stop hs hstop] at h
        cases h
        rw [drain_some_stop (splitNl_append_some c hs) hstop]
      · have hstop' : P.isStop l = false := by simpa using hstop
        rw [drain_some_go hs hstop'] at h
        rw [drain_some_go (splitNl_append_some c hs) hstop']
        exact ih r.length (by omega) rfl h

theorem drain_false_no_nl {P : LineProc σ} :
    ∀ {b s b₁ s₁}, drain P b s = (b₁, s₁, false) → '\n' ∉ b₁ := by
  intro b
  induction' hn : b.length using Nat.strong_induction_on with n ih generalizing b
  ·
    intro s b₁ s₁ h
    cases hs : splitNl b with
    | none =>
      rw [drain_none hs] at h
      cases h
      exact splitNl_none hs
    | some p =>
      obtain ⟨l, r⟩ := p
      have hr := splitNl_length hs
      by_cases hstop : P.isStop l = true
      · rw [drain_some_stop hs hstop] at h
        simp at h
      · have hstop' : P.isStop l = false := by simpa using hstop
        rw [drain_some_go hs hstop'] at h
        exact ih r.length (by omega) rfl h

theorem drain_stop_line {P : LineProc σ} :
    ∀ {b s b₁ s₁}, drain P b s = (b₁, s₁, true) →
      ∃ l ∈ completeLines b, P.isStop l = true := by
  intro b
  induction' hn : b.length using Nat.strong_induction_on with n ih generalizing b
  ·
    intro s b₁ s₁ h
    cases hs : splitNl b with
    | none =>
      rw [drain_none hs] at h
      simp at h
    | some p =>
      obtain ⟨l, r⟩ := p
      have hr := splitNl_length hs
      by_cases hstop : P.isStop l = true
      · exact ⟨l, by rw [completeLines_some hs]; exact List.mem_cons_self _ _, hstop⟩
      · have hstop' : P.isStop l = false := by simpa using hstop
        rw [drain_some_go hs hstop'] at h
        obtain ⟨l', hmem, hsl⟩ := ih r.length (by omega) rfl h
        exact ⟨l', by rw [completeLines_some hs]; exact List.mem_cons_of_mem _ hmem, hsl⟩

/-- Under `noStop`, a drain processes exactly the complete lines, in order. -/
theorem drain_of_noStop {P : LineProc σ} :
    ∀ {b s}, noStop P b →
      ∃ b₁, drain P b s = (b₁, (completeLines b).foldl P.step s, false) := by
  intro b
  induction' hn : b.length using Nat.strong_induction_on with n ih generalizing b
  ·
    intro s hns
    cases hs : splitNl b with
    | none =>
      rw [completeLines_none hs]
      exact ⟨b, by rw [drain_none hs]; simp⟩
    | some p =>
      obtain ⟨l, r⟩ := p
      have hr := splitNl_length hs
      have hstop : P.isStop l = false := by
        apply hns
        rw [completeLines_some hs]
        exact List.mem_cons_self _ _
      have hns' : noStop P r := fun l' hm => by
        apply hns
        rw [completeLines_some hs]
        exact List.mem_cons_of_mem _ hm
      obtain ⟨b₁, hb₁⟩ := ih r.length (by omega) rfl (s := P.step s l) hns'
      refine ⟨b₁, ?_⟩
      rw [drain_some_go hs hstop, completeLines_some hs, List.foldl_cons]
      exact hb₁

/-- State-invariant preservation through a drain. -/
theorem drain_inv {P : LineProc σ} {Inv : σ → Prop}
    (hstep : ∀ s l, Inv s → Inv (P.step s l))
    (hstop : ∀ s l, Inv s → Inv (P.onStop s l)) :
    ∀ {b s b₁ s₁ f}, drain P b s = (b₁, s₁, f) → Inv s → Inv s₁ := by
  intro b
  induction' hn : b.length using Nat.strong_induction_on with n ih generalizing b
  ·
    intro s b₁ s₁ f h hInv
    cases hs : splitNl b with
    | none =>
      rw [drain_none hs] at h
      cases h
      exact hInv
    | some p =>
      obtain ⟨l, r⟩ := p
      have hr := splitNl_length hs
      by_cases hst : P.isStop l = true
      · rw [drain_some_stop hs hst] at h
        cases h
        exact hstop _ _ hInv
      · have hst' : P.isStop l = false := by simpa using hst
        rw [drain_some_go hs hst'] at h
        exact ih r.length (by omega) rfl h (hstep _ _ hInv)

/-- Post-condition transfer through a drain: `Inv` is preserved by `step`,
and `onStop` establishes `Q`. -/
theorem drain_inv_step {P : LineProc σ} {I Q : σ → Prop}
    (hstep : ∀ s l, I s → I (P.step s l))
    (hstop : ∀ s l, I s → Q (P.onStop s l)) :
    ∀ {b s b₁ s₁ f}, drain P b s = (b₁, s₁, f) → I s →
      (f = false → I s₁) ∧ (f = true → Q s₁) := by
  intro b
  induction' hn : b.length using Nat.strong_induction_on with n ih generalizing b
  intro s b₁ s₁ f h hInv
  cases hs : splitNl b with
  | none =>
    rw [drain_none hs] at h
    cases h
    refine ⟨fun _ => hInv, fun hc => ?_⟩
    cases hc
  | some p =>
    obtain ⟨l, r⟩ := p
    have hr := splitNl_length hs
    by_cases hst : P.isStop l = true
    · rw [drain_some_stop hs hst] at h
      cases h
      refine ⟨fun hc => ?_, fun _ => hstop _ _ hInv⟩
      cases hc
    · have hst' : P.isStop l = false := by simpa using hst
      rw [drain_some_go hs hst'] at h
      exact ih r.length (by omega) rfl h (hstep _ _ hInv)

/-- One outer-loop iteration of the streaming read: append the chunk to the
buffer, then drain complete lines. -/
def feed (P : LineProc σ) (st : Str × σ) (c : Str) : Str × σ :=
  ((drain P (st.1 ++ c) st.2).1, (drain P (st.1 ++ c) st.2).2.1)

/-- Process a chunked byte stream from an empty buffer (the Anthropic loop
shape: a stop line merely pauses draining until the next chunk). -/
def runChunks (P : LineProc σ) (s0 : σ) (chunks : List Str) : Str × σ :=
  chunks.foldl (feed P) ([], s0)

theorem feed_join_aux {P : LineProc σ} (chunks : List Str) :
    ∀ (b : Str) (s : σ), '\n' ∉ b → noStop P (b ++ chunks.join) →
      chunks.foldl (feed P) (b, s) = feed P (b, s) chunks.join := by
  induction chunks with
  | nil =>
    intro b s hb _
    simp only [List.foldl_nil, List.join_nil, feed, List.append_nil]
    rw [drain_none (splitNl_none_of_not_mem hb)]
  | cons c cs ih =>
    intro b s hb hns
    have hxeq : b ++ (c :: cs).join = (b ++ c) ++ cs.join := by simp
    have hns' : noStop P ((b ++ c) ++ cs.join) := hxeq ▸ hns
    rcases hf : drain P (b ++ c) s with ⟨b₁, s₁, f⟩
    cases f with
    | true =>
      exfalso
      obtain ⟨l, hmem, hl⟩ := drain_stop_line hf
      have hmem' : l ∈ completeLines ((b ++ c) ++ cs.join) :=
        (completeLines_sub (b ++ c) cs.join).subset hmem
      have := hns' l hmem'
      rw [hl] at this
      cases this
    | false =>
      have hb₁ : '\n' ∉ b₁ := drain_false_no_nl hf
      have hns₁ : noStop P (b₁ ++ cs.join) := by
        intro l hmem
        exact hns' l ((drain_decomp cs.join hf).subset hmem)
      have hfeed : feed P (b, s) c = (b₁, s₁) := by
        simp only [feed, hf]
      rw [List.foldl_cons, hfeed, ih b₁ s₁ hb₁ hns₁]
      simp only [feed, List.join_cons]
      rw [← List.append_assoc, drain_append_false cs.join hf]

/-- Chunk-boundary invariance for the Anthropic-shaped loop, provided no
stop line occurs in the stream. -/
theorem runChunks_join {P : LineProc σ} {chunks : List Str} {s0 : σ}
    (h : noStop P chunks.join) :
    runChunks P s0 chunks = runChunks P s0 [chunks.join] := by
  unfold runChunks
  rw [feed_join_aux chunks [] s0 (by simp) (by simpa using h)]
  simp

/-- One outer-loop iteration of the OpenRouter-shaped loop: once the handler
has returned (`isDone`), further chunks are ignored. -/
def feedStop (P : LineProc σ) (isDone : σ → Bool) (st : Str × σ) (c : Str) :
    Str × σ :=
  if isDone st.2 then st
  else ((drain P (st.1 ++ c) st.2).1, (drain P (st.1 ++ c) st.2).2.1)

def runChunksStop (P : LineProc σ) (isDone : σ → Bool) (s0 : σ)
    (chunks : List Str) : Str × σ :=
  chunks.foldl (feedStop P isDone) ([], s0)

theorem foldl_feedStop_done {P : LineProc σ} {isDone : σ → Bool}
    {st : Str × σ} (chunks : List Str) (hd : isDone st.2 = true) :
    chunks.foldl (feedStop P isDone) st = st := by
  induction chunks with
  | nil => rfl
  | cons c cs ih =>
    rw [List.foldl_cons]
    rw [show feedStop P isDone st c = st from by simp [feedStop, hd]]
    exact ih

theorem feedStop_join_aux {P : LineProc σ} {isDone : σ → Bool}
    (hstep : ∀ s l, isDone (P.step s l) = isDone s)
    (hstop : ∀ s l, isDone (P.onStop s l) = true)
    (chunks : List Str) :
    ∀ (b : Str) (s : σ), '\n' ∉ b → isDone s = false →
      (chunks.foldl (feedStop P isDone) (b, s)).2 =
        (feedStop P isDone (b, s) chunks.join).2 := by
  induction chunks with
  | nil =>
    intro b s hb hd
    simp only [List.foldl_nil, List.join_nil, feedStop, hd]
    rw [if_neg (by simp [hd])]
    simp only [List.append_nil]
    rw [drain_none (splitNl_none_of_not_mem hb)]
  | cons c cs ih =>
    intro b s hb hd
    rcases hf : drain P (b ++ c) s with ⟨b₁, s₁, f⟩
    have hfeed : feedStop P isDone (b, s) c = (b₁, s₁) := by
      simp [feedStop, hd, hf]
    have hinv := drain_inv_step (I := fun t => isDone t = false)
      (Q := fun t => isDone t = true)
      (fun s l hI => by
        show isDone (P.step s l) = false
        rw [hstep]
        exact hI)
      (fun s l _ => hstop s l) hf hd
    cases f with
    | false =>
      have hd₁ : isDone s₁ = false := hinv.1 rfl
      have hb₁ : '\n' ∉ b₁ := drain_false_no_nl hf
      rw [List.foldl_cons, hfeed, ih b₁ s₁ hb₁ hd₁]
      simp only [feedStop, hd₁, hd, List.join_cons]
      rw [if_neg (by simp [hd₁]), if_neg (by simp [hd])]
      rw [← List.append_assoc, drain_append_false cs.join hf]
    | true =>
      have hd₁ : isDone s₁ = true := hinv.2 rfl
      rw [List.foldl_cons, hfeed, foldl_feedStop_done cs hd₁]
      simp only [feedStop, hd, List.join_cons]
      rw [if_neg (by simp [hd])]
      rw [← List.append_assoc, drain_append_true cs.join hf]

/-- Chunk-boundary invariance of the final handler state for the
OpenRouter-shaped loop (unconditional: an early return freezes the state). -/
theorem runChunksStop_join {P : LineProc σ} {d : σ → Bool}
    (hstep : ∀ s l, d (P.step s l) = d s)
    (hstop : ∀ s l, d (P.onStop s l) = true)
    (chunks : List Str) (s0 : σ) (h0 : d s0 = false) :
    (runChunksStop P d s0 chunks).2 =
      (runChunksStop P d s0 [chunks.join]).2 := by
  unfold runChunksStop
  rw [feedStop_join_aux hstep hstop chunks [] s0 (by simp) h0]
  simp

/-! ### Streaming providers

Effects are reified: a streaming call consumes the HTTP response body as a
list of chunks and produces, besides its return value, the ordered list of
`token_tx.send` calls and `UsageTracker::add` calls it performed. -/

/-- One `TokenUsage` record as passed to `UsageTracker::add`. -/
structure TokenUsage where
  prompt_tokens : Nat
  completion_tokens : Nat
  total_tokens : Nat
deriving DecidableEq

/-- Observable side effects of a streaming call, in order. -/
inductive Action where
  | token (s : Str)
  | usage (u : TokenUsage)
deriving DecidableEq

/-- Rust `str::strip_prefix`. -/
def stripPrefix (s pre : Str) : Option Str :=
  if pre.isPrefixOf s then some (s.drop pre.length) else none

/-- Deserialization of `AnthropicUsage { input_tokens: u64, output_tokens:
u64 }` with `#[serde(default)]` fields: requires an object; absent fields
default to `0`; an ill-typed field fails the whole decode. -/
def anthropicUsageOf (v : Json) : Option (Nat × Nat) :=
  match v with
  | .obj _ =>
    let dec (key : Str) : Option Nat :=
      match v.get key with
      | none => some 0
      | some f => f.asU64
    match dec (strL "input_tokens"), dec (strL "output_tokens") with
    | some i, some o => some (i, o)
    | _, _ => none
  | _ => none

/-- State of the Anthropic SSE read loop (`full_text` plus emitted effects). -/
structure AnthState where
  fullText : Str
  trace : List Action
deriving DecidableEq

/-- `tracker.add(&TokenUsage { prompt: input, completion: output, total:
input + output })`, guarded by `if let Some(tracker)`. -/
def anthTrackAdd (hasTracker : Bool) (trace : List Action) (iu ou : Nat) :
    List Action :=
  if hasTracker then trace ++ [.usage ⟨iu, ou, iu + ou⟩] else trace

/-- Whether a line is Anthropic's `[DONE]` break line: after trimming
trailing `'\r'`, it starts with `"data: "` and the payload is `[DONE]`. -/
def anthIsStop (rawLine : Str) : Bool :=
  let line := trimEndCr rawLine
  (strL "data: ").isPrefixOf line && line.drop 6 = strL "[DONE]"

/-- Processing of one complete non-`[DONE]` SSE line in
`AnthropicProvider::chat_with_history_stream` (anthropic.rs:240-299). -/
def anthLineStep (hasTracker : Bool) (st : AnthState) (rawLine : Str) :
    AnthState :=
  let line := trimEndCr rawLine
  if ¬ (strL "data: ").isPrefixOf line then st
  else
    let data := line.drop 6
    match jsonParse data with
    | none => st
    | some event =>
      let eventType := ((event.get (strL "type")).bind Json.asStr).getD []
      if eventType = strL "content_block_delta" then
        match event.get (strL "delta") with
        | none => st
        | some delta =>
          match (delta.get (strL "text")).bind Json.asStr with
          | none => st
          | some text =>
            { fullText := st.fullText ++ text, trace := st.trace ++ [.token text] }
      else if eventType = strL "message_delta" then
        match event.get (strL "usage") with
        | none => st
        | some usageVal =>
          match anthropicUsageOf usageVal with
          | none => st
          | some (iu, ou) =>
            { st with trace := anthTrackAdd hasTracker st.trace iu ou }
      else if eventType = strL "message_start" then
        match event.get (strL "message") with
        | none => st
        | some message =>
          match message.get (strL "usage") with
          | none => st
          | some usageVal =>
            match anthropicUsageOf usageVal with
            | none => st
            | some (iu, ou) =>
              { st with trace := anthTrackAdd hasTracker st.trace iu ou }
      else st

/-- The Anthropic read loop as a line machine: `[DONE]` breaks the inner
line-processing loop (leaving the state untouched); every other complete
line is processed by `anthLineStep`. -/
def anthProc (hasTracker : Bool) : LineProc AnthState :=
  { isStop := anthIsStop
    onStop := fun st _ => st
    step := anthLineStep hasTracker }

/-- `AnthropicProvider::chat_with_history_stream` after a successful HTTP
exchange: reads all chunks, then returns `Ok(full_text)` unconditionally
(anthropic.rs:302).  Result and effect trace. -/
def anthropicStreamBody (hasTracker : Bool) (chunks : List Str) :
    Except Str Str × List Action :=
  let st := (runChunks (anthProc hasTracker) ⟨[], []⟩ chunks).2
  (.ok st.fullText, st.trace)

/-- Deserialization of `ApiUsage` (`prompt_tokens`/`completion_tokens`/
`total_tokens`, all `#[serde(default)] u64`). -/
def apiUsageOf (v : Json) : Option TokenUsage :=
  match v with
  | .obj _ =>
    let dec (key : Str) : Option Nat :=
      match v.get key with
      | none => some 0
      | some f => f.asU64
    match dec (strL "prompt_tokens"), dec (strL "completion_tokens"),
        dec (strL "total_tokens") with
    | some p, some c, some t => some ⟨p, c, t⟩
    | _, _, _ => none
  | _ => none

/-- Deserialization of `StreamDelta { content: Option<String> }`. -/
def streamDeltaOf (v : Json) : Option (Option Str) :=
  match v with
  | .obj _ =>
    match v.get (strL "content") with
    | none => some none
    | some .null => some none
    | some (.str s) => some (some s)
    | some _ => none
  | _ => none

/-- Deserialization of `StreamChoice { delta: Option<StreamDelta> }`:
yields `delta?` → `content?`. -/
def streamChoiceOf (v : Json) : Option (Option (Option Str)) :=
  match v with
  | .obj _ =>
    match v.get (strL "delta") with
    | none => some none
    | some .null => some none
    | some d => (streamDeltaOf d).map some
  | _ => none

def traverseOption (f : Json → Option α) : List Json → Option (List α)
  | [] => some []
  | x :: xs =>
    match f x with
    | none => none
    | some y => (traverseOption f xs).map (y :: ·)

/-- Deserialized `StreamChunk { choices, usage }`. -/
structure OrChunk where
  choices : List (Option (Option Str))
  usage : Option TokenUsage

/-- Deserialization of `StreamChunk { choices: Vec<StreamChoice>, usage:
Option<ApiUsage> }`: `choices` is mandatory. -/
def streamChunkOf (v : Json) : Option OrChunk :=
  match v with
  | .obj _ =>
    match v.get (strL "choices") with
    | some (.arr elems) =>
      match traverseOption streamChoiceOf elems with
      | none => none
      | some cs =>
        match v.get (strL "usage") with
        | none => some ⟨cs, none⟩
        | some .null => some ⟨cs, none⟩
        | some u => (apiUsageOf u).map (fun tu => ⟨cs, some tu⟩)
    | _ => none
  | _ => none

instance exceptDecEq {e a : Type} [DecidableEq e] [DecidableEq a] :
    DecidableEq (Except e a) := fun x y =>
  match x, y with
  | .error u, .error v =>
    if h : u = v then isTrue (by rw [h]) else isFalse (by intro hc; cases hc; exact h rfl)
  | .error _, .ok _ => isFalse (by intro hc; cases hc)
  | .ok _, .error _ => isFalse (by intro hc; cases hc)
  | .ok u, .ok v =>
    if h : u = v then isTrue (by rw [h]) else isFalse (by intro hc; cases hc; exact h rfl)

/-- State of the OpenRouter SSE read loop.  `done` records an early
`return` from inside the loop. -/
structure OrState where
  fullResponse : Str
  lastUsage : Option TokenUsage
  trace : List Action
  done : Option (Except Str Str)
deriving DecidableEq

/-- `OpenRouterProvider::track_usage`: adds only when a tracker is attached
and usage metadata is present. -/
def orTrackUsage (hasTracker : Bool) (trace : List Action)
    (u : Option TokenUsage) : List Action :=
  match hasTracker, u with
  | true, some u => trace ++ [.usage u]
  | _, _ => trace

/-- Whether a line is OpenRouter's `[DONE]` return line: after `trim`, it
strips a `"data: "` prefix whose payload trims to `[DONE]`. -/
def orIsStop (rawLine : Str) : Bool :=
  match stripPrefix (trim rawLine) (strL "data: ") with
  | some data => trim data = strL "[DONE]"
  | none => false

/-- The per-choice body of the `for choice in sc.choices` loop
(openrouter.rs:289-298): a non-empty `delta.content` is appended to
`full_response` and sent through the channel. -/
def orApplyChoice (acc : OrState) (choice : Option (Option Str)) : OrState :=
  match choice with
  | some (some content) =>
    if content.isEmpty then acc
    else
      { acc with
        fullResponse := acc.fullResponse ++ content,
        trace := acc.trace ++ [.token content] }
  | _ => acc

/-- Processing of one complete non-`[DONE]` SSE line in
`OpenRouterProvider::chat_with_history_stream` (openrouter.rs:270-301). -/
def orLineStep (st : OrState) (rawLine : Str) : OrState :=
  let line := trim rawLine
  if line.isEmpty || line.head? = some ':' then st
  else
    match stripPrefix line (strL "data: ") with
    | none => st
    | some data =>
      match jsonParse data with
      | none => st
      | some v =>
        match streamChunkOf v with
        | none => st
        | some chunk =>
          let st1 :=
            match chunk.usage with
            | some u => { st with lastUsage := some u }
            | none => st
          chunk.choices.foldl orApplyChoice st1

/-- The `[DONE]` early return: `track_usage(&last_usage)`, then bail on an
empty `full_response` or return it (openrouter.rs:278-284). -/
def orOnStop (hasTracker : Bool) (st : OrState) (_rawLine : Str) : OrState :=
  let trace := orTrackUsage hasTracker st.trace st.lastUsage
  if st.fullResponse.isEmpty then
    { st with trace := trace,
              done := some (.error (strL "No response from OpenRouter stream")) }
  else
    { st with trace := trace, done := some (.ok st.fullResponse) }

def orProc (hasTracker : Bool) : LineProc OrState :=
  { isStop := orIsStop
    onStop := orOnStop hasTracker
    step := orLineStep }

def orDone (st : OrState) : Bool := st.done.isSome

/-- `OpenRouterProvider::chat_with_history_stream` after a successful HTTP
exchange: reads chunks until exhaustion or the `[DONE]` return, then (if no
early return happened) tracks the last usage and bails on an empty
response (openrouter.rs:304-309).  Result and effect trace. -/
def openrouterStreamBody (hasTracker : Bool) (chunks : List Str) :
    Except Str Str × List Action :=
  let st := (runChunksStop (orProc hasTracker) orDone ⟨[], none, [], none⟩ chunks).2
  match st.done with
  | some r => (r, st.trace)
  | none =>
    let trace := orTrackUsage hasTracker st.trace st.lastUsage
    (if st.fullResponse.isEmpty then
       .error (strL "No response from OpenRouter stream")
     else .ok st.fullResponse, trace)

/-! ### UTF-8 lossy decoding of byte chunks

Each network chunk is decoded with `String::from_utf8_lossy(&chunk)` before
being appended to the line buffer, so a multi-byte scalar split across two
chunks is replaced by U+FFFD characters. -/

def replChar : Char := Char.ofNat 0xFFFD

def isContByte (b : Nat) : Bool := 0x80 ≤ b && b ≤ 0xBF

def utf8LossyAux : Nat → List Nat → List Char
  | 0, _ => []
  | fuel + 1, bs =>
  match bs with
  | [] => []
  | b :: rest =>
    if b < 0x80 then Char.ofNat b :: utf8LossyAux fuel rest
    else if 0xC2 ≤ b ∧ b ≤ 0xDF then
      match rest with
      | [] => [replChar]
      | b1 :: rest' =>
        if isContByte b1 then
          Char.ofNat ((b - 0xC0) * 64 + (b1 - 0x80)) :: utf8LossyAux fuel rest'
        else replChar :: utf8LossyAux fuel (b1 :: rest')
    else if 0xE0 ≤ b ∧ b ≤ 0xEF then
      let lo := if b = 0xE0 then 0xA0 else 0x80
      let hi := if b = 0xED then 0x9F else 0xBF
      match rest with
      | [] => [replChar]
      | b1 :: rest' =>
        if lo ≤ b1 ∧ b1 ≤ hi then
          match rest' with
          | [] => [replChar]
          | b2 :: rest'' =>
            if isContByte b2 then
              Char.ofNat ((b - 0xE0) * 4096 + (b1 - 0x80) * 64 + (b2 - 0x80)) ::
                utf8LossyAux fuel rest''
            else replChar :: utf8LossyAux fuel (b2 :: rest'')
        else replChar :: utf8LossyAux fuel (b1 :: rest')
    else if 0xF0 ≤ b ∧ b ≤ 0xF4 then
      let lo := if b = 0xF0 then 0x90 else 0x80
      let hi := if b = 0xF4 then 0x8F else 0xBF
      match rest with
      | [] => [replChar]
      | b1 :: rest' =>
        if lo ≤ b1 ∧ b1 ≤ hi then
          match rest' with
          | [] => [replChar]
          | b2 :: rest'' =>
            if isContByte b2 then
              match rest'' with
              | [] => [replChar]
              | b3 :: rest''' =>
                if isContByte b3 then
                  Char.ofNat ((b - 0xF0) * 262144 + (b1 - 0x80) * 4096 +
                    (b2 - 0x80) * 64 + (b3 - 0x80)) :: utf8LossyAux fuel rest'''
                else replChar :: utf8LossyAux fuel (b3 :: rest''')
            else replChar :: utf8LossyAux fuel (b2 :: rest'')
        else replChar :: utf8LossyAux fuel (b1 :: rest')
    else replChar :: utf8LossyAux fuel rest
/-- `String::from_utf8_lossy`: WHATWG incremental UTF-8 decoding with one
U+FFFD per maximal invalid subsequence; structural fuel bounded by the byte
count. -/
def utf8Lossy (bs : List Nat) : List Char := utf8LossyAux bs.length bs

/-- Anthropic streaming on raw byte chunks: each chunk is decoded lossily in
isolation, as in the source. -/
def anthropicStreamBytes (hasTracker : Bool) (bchunks : List (List Nat)) :
    Except Str Str × List Action :=
  anthropicStreamBody hasTracker (bchunks.map utf8Lossy)

/-- OpenRouter streaming on raw byte chunks. -/
def openrouterStreamBytes (hasTracker : Bool) (bchunks : List (List Nat)) :
    Except Str Str × List Action :=
  openrouterStreamBody hasTracker (bchunks.map utf8Lossy)

/-! ### Tool-call protocol parsing (`parse_tool_calls`, tui/mod.rs:232-265) -/

structure ParsedToolCall where
  name : Str
  arguments : Json

/-- Call extraction from a parsed JSON value (tui/mod.rs:245-254): `name`
from the `name` field when it is a string (else `""`), `arguments` from the
`arguments` field (else the empty object). -/
def mkParsedCall (v : Json) : ParsedToolCall :=
  { name := ((v.get (strL "name")).bind Json.asStr).getD []
    arguments := (v.get (strL "arguments")).getD (.obj []) }

def toolCallStart : Str := strL "<tool_call>"

def toolCallEnd : Str := strL "</tool_call>"

def parseToolCallsGoAux : Nat → Str → List Str → List ParsedToolCall →
    List Str × List ParsedToolCall
  | 0, remaining, textParts, calls =>
    (if (trim remaining).isEmpty then textParts
     else textParts ++ [trim remaining], calls)
  | fuel + 1, remaining, textParts, calls =>
    match findSub remaining toolCallStart with
    | none =>
      (if (trim remaining).isEmpty then textParts
       else textParts ++ [trim remaining], calls)
    | some start =>
      let before := remaining.take start
      let textParts' :=
        if (trim before).isEmpty then textParts else textParts ++ [trim before]
      match findSub (remaining.drop start) toolCallEnd with
      | some endo =>
        let inner := (remaining.drop (start + 11)).take (endo - 11)
        let calls' :=
          match jsonParse (trim inner) with
          | some v => calls ++ [mkParsedCall v]
          | none => calls
        parseToolCallsGoAux fuel (remaining.drop (start + endo + 12)) textParts' calls'
      | none =>
        (if (trim remaining).isEmpty then textParts'
         else textParts' ++ [trim remaining], calls)

/-- The scanning loop of `parse_tool_calls`: find a start marker, push the
(trimmed, non-empty) free text before it, find the matching end marker; a
well-parsed JSON payload contributes a call; a missing end marker breaks the
loop, after which the whole current `remaining` is pushed as trailing text.
Structural fuel bounded by the remaining length (each parsed block consumes
at least the two markers). -/
def parseToolCallsGo (remaining : Str) (textParts : List Str)
    (calls : List ParsedToolCall) : List Str × List ParsedToolCall :=
  parseToolCallsGoAux remaining.length remaining textParts calls

theorem parseToolCallsGoAux_irrel :
    ∀ (f₁ f₂ : Nat) (remaining : Str) (textParts : List Str)
      (calls : List ParsedToolCall),
      remaining.length ≤ f₁ → remaining.length ≤ f₂ →
      parseToolCallsGoAux f₁ remaining textParts calls =
        parseToolCallsGoAux f₂ remaining textParts calls := by
  intro f₁
  induction f₁ with
  | zero =>
    intro f₂ remaining textParts calls h1 _
    have hnil : remaining = [] := List.length_eq_zero.mp (by omega)
    subst hnil
    cases f₂ with
    | zero => rfl
    | succ m => rfl
  | succ n ih =>
    intro f₂ remaining textParts calls h1 h2
    cases f₂ with
    | zero =>
      have hnil : remaining = [] := List.length_eq_zero.mp (by omega)
      subst hnil
      rfl
    | succ m =>
      cases hs : findSub remaining toolCallStart with
      | none => simp [parseToolCallsGoAux, hs]
      | some start =>
        have hs11 : start + 11 ≤ remaining.length := by
          have := findSub_le hs
          simpa [toolCallStart, strL] using this
        cases he : findSub (remaining.drop start) toolCallEnd with
        | none => simp [parseToolCallsGoAux, hs, he]
        | some endo =>
          have he12 : endo + 12 ≤ remaining.length - start := by
            have := findSub_le he
            simpa [toolCallEnd, strL] using this
          simp only [parseToolCallsGoAux, hs, he]
          exact ih m (remaining.drop (start + endo + 12)) _ _
            (by simp; omega) (by simp; omega)

theorem parseToolCallsGo_none {remaining : Str} {textParts : List Str}
    {calls : List ParsedToolCall}
    (h : findSub remaining toolCallStart = none) :
    parseToolCallsGo remaining textParts calls =
      (if (trim remaining).isEmpty then textParts
       else textParts ++ [trim remaining], calls) := by
  unfold parseToolCallsGo
  cases hn : remaining.length with
  | zero => rfl
  | succ n => simp [parseToolCallsGoAux, h]

theorem parseToolCallsGo_unterminated {remaining : Str} {start : Nat}
    {textParts : List Str} {calls : List ParsedToolCall}
    (hs : findSub remaining toolCallStart = some start)
    (he : findSub (remaining.drop start) toolCallEnd = none) :
    parseToolCallsGo remaining textParts calls =
      (if (trim remaining).isEmpty then
         (if (trim (remaining.take start)).isEmpty then textParts
          else textParts ++ [trim (remaining.take start)])
       else
         (if (trim (remaining.take start)).isEmpty then textParts
          else textParts ++ [trim (remaining.take start)]) ++ [trim remaining],
       calls) := by
  have hs11 : start + 11 ≤ remaining.length := by
    have := findSub_le hs
    simpa [toolCallStart, strL] using this
  unfold parseToolCallsGo
  obtain ⟨n, hn⟩ : ∃ n, remaining.length = n + 1 :=
    ⟨remaining.length - 1, by omega⟩
  rw [hn]
  simp [parseToolCallsGoAux, hs, he]

theorem parseToolCallsGo_step {remaining : Str} {start endo : Nat}
    {textParts : List Str} {calls : List ParsedToolCall}
    (hs : findSub remaining toolCallStart = some start)
    (he : findSub (remaining.drop start) toolCallEnd = some endo) :
    parseToolCallsGo remaining textParts calls =
      parseToolCallsGo (remaining.drop (start + endo + 12))
        (if (trim (remaining.take start)).isEmpty then textParts
         else textParts ++ [trim (remaining.take start)])
        (match jsonParse (trim ((remaining.drop (start + 11)).take (endo - 11))) with
         | some v => calls ++ [mkParsedCall v]
         | none => calls) := by
  have hs11 : start + 11 ≤ remaining.length := by
    have := findSub_le hs
    simpa [toolCallStart, strL] using this
  have he12 : endo + 12 ≤ remaining.length - start := by
    have := findSub_le he
    simpa [toolCallEnd, strL] using this
  unfold parseToolCallsGo
  obtain ⟨n, hn⟩ : ∃ n, remaining.length = n + 1 :=
    ⟨remaining.length - 1, by omega⟩
  rw [hn]
  simp only [parseToolCallsGoAux, hs, he]
  exact parseToolCallsGoAux_irrel n (remaining.drop (start + endo + 12)).length
    (remaining.drop (start + endo + 12)) _ _ (by simp; omega) le_rfl

/-- `parse_tool_calls`: narrative text (parts joined by `"\n"`) and parsed
calls in source order. -/
def parseToolCalls (response : Str) : Str × List ParsedToolCall :=
  let r := parseToolCallsGo response [] []
  (List.intercalate ['\n'] r.1, r.2)

/-! ### Conversation history (`ChatMessage`, `trim_history`) -/

structure ChatMessage where
  role : Str
  content : Str
deriving DecidableEq

def ChatMessage.system (content : Str) : ChatMessage := ⟨strL "system", content⟩

def ChatMessage.user (content : Str) : ChatMessage := ⟨strL "user", content⟩

def ChatMessage.assistant (content : Str) : ChatMessage := ⟨strL "assistant", content⟩

/-- Maximum agentic tool-use iterations per user message (tui/mod.rs:22). -/
def MAX_TOOL_ITERATIONS : Nat := 10

/-- Maximum non-system messages in history (tui/mod.rs:25). -/
def MAX_HISTORY_MESSAGES : Nat := 50

/-- `trim_history` (tui/mod.rs:420-433). -/
def trimHistory (history : List ChatMessage) : List ChatMessage :=
  let hasSystem :=
    match history.head? with
    | some m => m.role == strL "system"
    | none => false
  let nonSystemCount := if hasSystem then history.length - 1 else history.length
  if nonSystemCount ≤ MAX_HISTORY_MESSAGES then history
  else
    let start := if hasSystem then 1 else 0
    let toRemove := nonSystemCount - MAX_HISTORY_MESSAGES
    history.take start ++ history.drop (start + toRemove)

/-! ### Tool execution and the agent loop (`agent_turn_with_events`) -/

structure ToolResult where
  success : Bool
  output : Str
  error : Option Str
deriving DecidableEq

/-- A registered tool: its name and a pure model of `execute`
(`Err` models an `anyhow` failure propagating out of `execute`). -/
structure ToolDef where
  name : Str
  run : Json → Except Str ToolResult

/-- The per-call output string computed by a dispatched tool task
(tui/mod.rs:335-343): unknown names yield a synthetic message rather than a
failure. -/
def toolOutput (tools : List ToolDef) (name : Str) (args : Json) : Str :=
  match tools.find? (fun t => t.name == name) with
  | some t =>
    match t.run args with
    | .ok r =>
      if r.success then r.output
      else strL "Error: " ++ (r.error.getD r.output)
    | .error e => strL "Error executing " ++ name ++ strL ": " ++ e
  | none => strL "Unknown tool: " ++ name

/-- The aggregated tool-results block, collected in call-parse order
(tui/mod.rs:360-381); `writeln!` terminates each entry with `'\n'`. -/
def toolResultsBlock (tools : List ToolDef) (calls : List ParsedToolCall) :
    Str :=
  calls.foldl (fun acc call =>
    acc ++ strL "<tool_result name=\"" ++ call.name ++ strL "\">\n" ++
      toolOutput tools call.name call.arguments ++
      strL "\n</tool_result>" ++ ['\n']) []

/-- The iteration loop of `agent_turn_with_events` (tui/mod.rs:277-390) with
the provider abstracted as a function from the current history to the
response text (the streaming and non-streaming branches both yield exactly
that text).  Returns the final history, the turn result, and the number of
model calls made. -/
def agentTurnGo (provider : List ChatMessage → Str) (tools : List ToolDef)
    (history : List ChatMessage) :
    Nat → List ChatMessage × Except Str Str × Nat
  | 0 => (history, .error (strL "Agent exceeded maximum tool iterations (10)"), 0)
  | fuel + 1 =>
    let response := provider history
    let parsed := parseToolCalls response
    if parsed.2.isEmpty then
      (history ++ [ChatMessage.assistant response],
       .ok (if parsed.1.isEmpty then response else parsed.1), 1)
    else
      let results := toolResultsBlock tools parsed.2
      let history' := history ++ [ChatMessage.assistant response,
        ChatMessage.user (strL "[Tool results]\n" ++ results)]
      let rec' := agentTurnGo provider tools history' fuel
      (rec'.1, rec'.2.1, rec'.2.2 + 1)

def agentTurnWithEvents (provider : List ChatMessage → Str)
    (tools : List ToolDef) (history : List ChatMessage) :
    List ChatMessage × Except Str Str × Nat :=
  agentTurnGo provider tools history MAX_TOOL_ITERATIONS

/-! ### `FilePatchTool::execute` (file_patch.rs:49-141) -/

def Json.getStr (v : Json) (key : Str) : Option Str :=
  (v.get key).bind Json.asStr

/-- Security and filesystem effects surrounding one `file_patch` execution:
the policy decisions for the requested path, the canonicalization outcome,
the read outcome, and whether the write succeeds.  The `...Err`/`Display`
strings stand for the corresponding io error renderings. -/
structure PatchEnv where
  pathAllowed : Bool
  resolveOk : Bool
  resolveErr : Str
  resolvedAllowed : Bool
  resolvedDisplay : Str
  readResult : Option Str
  readErr : Str
  writeOk : Bool
  writeErr : Str

/-- `FilePatchTool::execute`: returns the `ToolResult` and the content
written to the file, if a write was attempted (`none` = the file was never
touched). -/
def filePatchExecute (env : PatchEnv) (args : Json) :
    Except Str (ToolResult × Option Str) :=
  match args.getStr (strL "path") with
  | none => .error (strL "Missing 'path' parameter")
  | some path =>
  match args.getStr (strL "old_string") with
  | none => .error (strL "Missing 'old_string' parameter")
  | some old_string =>
  match args.getStr (strL "new_string") with
  | none => .error (strL "Missing 'new_string' parameter")
  | some new_string =>
  if ¬env.pathAllowed then
    .ok (⟨false, [], some (strL "Path not allowed by security policy: " ++ path)⟩,
      none)
  else if ¬env.resolveOk then
    .ok (⟨false, [], some (strL "Cannot resolve path: " ++ env.resolveErr)⟩, none)
  else if ¬env.resolvedAllowed then
    .ok (⟨false, [],
      some (strL "Resolved path escapes workspace: " ++ env.resolvedDisplay)⟩,
      none)
  else
    match env.readResult with
    | none =>
      .ok (⟨false, [], some (strL "Failed to read file: " ++ env.readErr)⟩, none)
    | some content =>
      let count := countMatches content old_string
      if count = 0 then
        .ok (⟨false, [], some (strL "old_string not found in file")⟩, none)
      else if count > 1 then
        .ok (⟨false, [],
          some (strL "old_string found " ++ natToStr count ++
            strL " times — must match exactly once. Provide more context.")⟩,
          none)
      else
        let new_content := replaceFirst content old_string new_string
        if env.writeOk then
          .ok (⟨true, strL "Patched " ++ path ++ strL " (" ++
            natToStr new_content.length ++ strL " bytes)", none⟩,
            some new_content)
        else
          .ok (⟨false, [], some (strL "Failed to write file: " ++ env.writeErr)⟩,
            some new_content)

/-! ### Non-streaming provider chat (`chat` / `chat_with_system`)

The HTTP exchange is abstracted as an oracle outcome; each model returns the
number of HTTP requests issued alongside the call result, making "never
issues a network call" directly statable. -/

/-- Outcome of one HTTP POST. -/
inductive HttpOutcome where
  | transportError (msg : Str)
  | httpError (status : Nat) (body : Str)
  | success (parsed : Option Json)

/-- Modelled from the spec: `super::api_error` lives in `providers/mod.rs`,
which is not part of the snapshot; the spec specifies
`HttpError{status, body}` ("vendor rejected the request").  Only the shape
matters to the claims, never the text. -/
def apiErrorMsg (vendor : Str) (status : Nat) (body : Str) : Str :=
  vendor ++ strL " API error (status " ++ natToStr status ++ strL "): " ++ body

/-- `AnthropicProvider` construction state (anthropic.rs:80-102): the
constructor is total — it never fails, with or without a key. -/
structure AnthropicProvider where
  credential : Option Str

/-- `AnthropicProvider::new`: trims the key and drops empty ones. -/
def anthropicNew (apiKey : Option Str) : AnthropicProvider :=
  { credential := (apiKey.map trim).filter (fun k => ¬k.isEmpty) }

/-- Deserialization of `ContentBlock { text: String }`. -/
def contentBlockOf (v : Json) : Option Str :=
  match v with
  | .obj _ =>
    match v.get (strL "text") with
    | some (.str s) => some s
    | _ => none
  | _ => none

/-- Deserialization of the Anthropic `ChatResponse { content, usage }`. -/
def anthChatResponseOf (v : Json) : Option (List Str × Option (Nat × Nat)) :=
  match v with
  | .obj _ =>
    match v.get (strL "content") with
    | some (.arr elems) =>
      match traverseOption contentBlockOf elems with
      | none => none
      | some texts =>
        match v.get (strL "usage") with
        | none => some (texts, none)
        | some .null => some (texts, none)
        | some u => (anthropicUsageOf u).map (fun p => (texts, some p))
    | _ => none
  | _ => none

/-- `AnthropicProvider::chat_with_system` (anthropic.rs:111-171): the
credential check is the first statement, before any request is built.
Returns (requests issued, result, tracker additions). -/
def anthropicChatWithSystem (p : AnthropicProvider) (hasTracker : Bool)
    (_systemPrompt : Option Str) (_message _model : Str)
    (net : HttpOutcome) : Nat × Except Str Str × List Action :=
  match p.credential with
  | none =>
    (0, .error (strL "Anthropic credentials not set. Set ANTHROPIC_API_KEY or ANTHROPIC_OAUTH_TOKEN (setup-token)."),
      [])
  | some _ =>
    match net with
    | .transportError e => (1, .error e, [])
    | .httpError status body =>
      (1, .error (apiErrorMsg (strL "Anthropic") status body), [])
    | .success none => (1, .error (strL "response JSON decode failed"), [])
    | .success (some v) =>
      match anthChatResponseOf v with
      | none => (1, .error (strL "response JSON decode failed"), [])
      | some (texts, usage) =>
        let actions : List Action :=
          match hasTracker, usage with
          | true, some (iu, ou) => [.usage ⟨iu, ou, iu + ou⟩]
          | _, _ => []
        match texts with
        | [] => (1, .error (strL "No response from Anthropic"), actions)
        | t :: _ => (1, .ok t, actions)

/-- The `Provider::chat` default method delegates to `chat_with_system`
with no system prompt (traits.rs:153-156). -/
def anthropicChat (p : AnthropicProvider) (hasTracker : Bool)
    (message model : Str) (net : HttpOutcome) :
    Nat × Except Str Str × List Action :=
  anthropicChatWithSystem p hasTracker none message model net

/-- `OpenAiProvider` construction state (openai.rs:52-62): total. -/
structure OpenAiProvider where
  api_key : Option Str

/-- `OpenAiProvider::new`: stores the key verbatim. -/
def openAiNew (apiKey : Option Str) : OpenAiProvider := ⟨apiKey⟩

/-- Deserialization of `Choice { message: ResponseMessage { content } }`. -/
def choiceOf (v : Json) : Option Str :=
  match v with
  | .obj _ =>
    match v.get (strL "message") with
    | some m =>
      match m with
      | .obj _ =>
        match m.get (strL "content") with
        | some (.str s) => some s
        | _ => none
      | _ => none
    | none => none
  | _ => none

/-- Deserialization of the OpenAI/OpenRouter `ApiChatResponse/ChatResponse
{ choices, usage }`. -/
def apiChatResponseOf (v : Json) : Option (List Str × Option TokenUsage) :=
  match v with
  | .obj _ =>
    match v.get (strL "choices") with
    | some (.arr elems) =>
      match traverseOption choiceOf elems with
      | none => none
      | some texts =>
        match v.get (strL "usage") with
        | none => some (texts, none)
        | some .null => some (texts, none)
        | some u => (apiUsageOf u).map (fun tu => (texts, some tu))
    | _ => none
  | _ => none

/-- `OpenAiProvider::chat_with_system` (openai.rs:78-130). -/
def openAiChatWithSystem (p : OpenAiProvider) (hasTracker : Bool)
    (_systemPrompt : Option Str) (_message _model : Str)
    (net : HttpOutcome) : Nat × Except Str Str × List Action :=
  match p.api_key with
  | none =>
    (0, .error (strL "OpenAI API key not set. Set OPENAI_API_KEY or edit config.toml."), [])
  | some _ =>
    match net with
    | .transportError e => (1, .error e, [])
    | .httpError status body =>
      (1, .error (apiErrorMsg (strL "OpenAI") status body), [])
    | .success none => (1, .error (strL "response JSON decode failed"), [])
    | .success (some v) =>
      match apiChatResponseOf v with
      | none => (1, .error (strL "response JSON decode failed"), [])
      | some (texts, usage) =>
        let actions : List Action :=
          match hasTracker, usage with
          | true, some tu => [.usage tu]
          | _, _ => []
        match texts with
        | [] => (1, .error (strL "No response from OpenAI"), actions)
        | t :: _ => (1, .ok t, actions)

def openAiChat (p : OpenAiProvider) (hasTracker : Bool) (message model : Str)
    (net : HttpOutcome) : Nat × Except Str Str × List Action :=
  openAiChatWithSystem p hasTracker none message model net

/-- `OpenRouterProvider` construction state (openrouter.rs:72-83): total. -/
structure OpenRouterProvider where
  api_key : Option Str

/-- `OpenRouterProvider::new`: stores the key verbatim. -/
def openRouterNew (apiKey : Option Str) : OpenRouterProvider := ⟨apiKey⟩

/-- `OpenRouterProvider::chat_with_system` (openrouter.rs:112-169). -/
def openRouterChatWithSystem (p : OpenRouterProvider) (hasTracker : Bool)
    (_systemPrompt : Option Str) (_message _model : Str)
    (net : HttpOutcome) : Nat × Except Str Str × List Action :=
  match p.api_key with
  | none =>
    (0, .error (strL "OpenRouter API key not set. Run `tinyclaw onboard` or set OPENROUTER_API_KEY env var."), [])
  | some _ =>
    match net with
    | .transportError e => (1, .error e, [])
    | .httpError status body =>
      (1, .error (apiErrorMsg (strL "OpenRouter") status body), [])
    | .success none => (1, .error (strL "response JSON decode failed"), [])
    | .success (some v) =>
      match apiChatResponseOf v with
      | none => (1, .error (strL "response JSON decode failed"), [])
      | some (texts, usage) =>
        let actions : List Action :=
          match hasTracker, usage with
          | true, some tu => [.usage tu]
          | _, _ => []
        match texts with
        | [] => (1, .error (strL "No response from OpenRouter"), actions)
        | t :: _ => (1, .ok t, actions)

def openRouterChat (p : OpenRouterProvider) (hasTracker : Bool)
    (message model : Str) (net : HttpOutcome) :
    Nat × Except Str Str × List Action :=
  openRouterChatWithSystem p hasTracker none message model net

/-! ### Helper lemmas for the claims -/

theorem findSub_none {hay pat : Str} (h : findSub hay pat = none) :
    ∀ i, ¬ pat <+: hay.drop i := by
  induction hay with
  | nil =>
    intro i hp
    simp only [List.drop_nil] at hp
    have : pat = [] := List.prefix_nil.mp hp
    subst this
    simp [findSub, List.isPrefixOf] at h
  | cons c t ih =>
    simp only [findSub] at h
    split at h
    · simp at h
    · rename_i hp
      intro i
      match i with
      | 0 =>
        simp only [List.drop_zero]
        exact fun hc => hp (List.isPrefixOf_iff_prefix.mpr hc)
      | i + 1 =>
        simp only [List.drop_succ_cons]
        cases h' : findSub t pat with
        | none => exact ih h' i
        | some k => rw [h'] at h; simp at h

theorem containsSub_of_middle (a p b : Str) :
    containsSub (a ++ p ++ b) p = true := by
  unfold containsSub
  cases h : findSub (a ++ p ++ b) p with
  | some k => rfl
  | none =>
    exfalso
    refine findSub_none h a.length ?_
    rw [List.append_assoc, List.drop_left]
    exact List.prefix_append p b

theorem mem_trimStart {c : Char} {s : Str} (hm : c ∈ s) (hw : isWs c = false) :
    c ∈ trimStart s := by
  induction s with
  | nil => cases hm
  | cons x xs ih =>
    simp only [trimStart]
    rcases List.mem_cons.mp hm with h | h
    · subst h
      rw [if_neg (by simp [hw])]
      exact List.mem_cons_self _ _
    · split
      · exact ih h
      · exact List.mem_cons_of_mem _ h

theorem mem_trim {c : Char} {s : Str} (hm : c ∈ s) (hw : isWs c = false) :
    c ∈ trim s := by
  unfold trim trimEnd
  rw [List.mem_reverse]
  apply mem_trimStart _ hw
  rw [List.mem_reverse]
  exact mem_trimStart hm hw

theorem trim_not_empty {c : Char} {s : Str} (hm : c ∈ s) (hw : isWs c = false) :
    (trim s).isEmpty = false := by
  have := mem_trim hm hw
  cases h : trim s with
  | nil => rw [h] at this; cases this
  | cons x xs => rfl

/-- The token deltas of an effect trace, in order. -/
def tokensOf (trace : List Action) : List Str :=
  trace.filterMap (fun a =>
    match a with
    | .token s => some s
    | .usage _ => none)

def isTokenAction (a : Action) : Bool :=
  match a with
  | .token _ => true
  | .usage _ => false

theorem tokensOf_append (t₁ t₂ : List Action) :
    tokensOf (t₁ ++ t₂) = tokensOf t₁ ++ tokensOf t₂ := by
  simp [tokensOf]

/-! ### C6 — history trimming -/

theorem trimHistory_sys_over {sys : ChatMessage} {rest : List ChatMessage}
    (hb : (sys.role == strL "system") = true)
    (hlen : MAX_HISTORY_MESSAGES < rest.length) :
    trimHistory (sys :: rest) =
      sys :: rest.drop (rest.length - MAX_HISTORY_MESSAGES) := by
  unfold trimHistory
  simp only [List.head?_cons, hb, eq_self_iff_true, if_true, List.length_cons,
    Nat.add_sub_cancel]
  rw [if_neg (by omega)]
  rw [show 1 + (rest.length - MAX_HISTORY_MESSAGES) =
    (rest.length - MAX_HISTORY_MESSAGES) + 1 from Nat.add_comm _ _]
  simp [List.take_succ_cons, List.drop_succ_cons]

theorem trimHistory_sys_under {sys : ChatMessage} {rest : List ChatMessage}
    (hb : (sys.role == strL "system") = true)
    (hlen : rest.length ≤ MAX_HISTORY_MESSAGES) :
    trimHistory (sys :: rest) = sys :: rest := by
  unfold trimHistory
  simp only [List.head?_cons, hb, eq_self_iff_true, if_true, List.length_cons,
    Nat.add_sub_cancel]
  rw [if_pos (by omega)]

theorem trimHistory_nosys_over {m₀ : ChatMessage} {t : List ChatMessage}
    (hb : (m₀.role == strL "system") = false)
    (hlen : MAX_HISTORY_MESSAGES < (m₀ :: t).length) :
    trimHistory (m₀ :: t) =
      (m₀ :: t).drop ((m₀ :: t).length - MAX_HISTORY_MESSAGES) := by
  unfold trimHistory
  simp only [List.head?_cons, hb, Bool.false_eq_true, if_false]
  rw [if_neg (by omega)]
  simp

theorem trimHistory_nosys_under {m₀ : ChatMessage} {t : List ChatMessage}
    (hb : (m₀.role == strL "system") = false)
    (hlen : (m₀ :: t).length ≤ MAX_HISTORY_MESSAGES) :
    trimHistory (m₀ :: t) = m₀ :: t := by
  unfold trimHistory
  simp only [List.head?_cons, hb, Bool.false_eq_true, if_false]
  rw [if_pos (by omega)]

/-- **C6**: whenever the number of non-system messages exceeds the ceiling
(50), `trim_history` removes exactly the oldest non-system messages so that
precisely the most recent 50 remain — preserving a leading system message if
present — and leaves history unchanged otherwise.  The four conjuncts cover
(over-limit/within-limit) × (with/without a leading system message); the
role hypotheses pin down "non-system messages" for histories satisfying the
data-model invariant (at most one, leading, system message). -/
theorem trim_history_spec :
    (∀ (sys : ChatMessage) (rest : List ChatMessage),
      sys.role = strL "system" → (∀ m ∈ rest, m.role ≠ strL "system") →
      MAX_HISTORY_MESSAGES < rest.length →
      ∃ dropped kept, rest = dropped ++ kept ∧
        kept.length = MAX_HISTORY_MESSAGES ∧
        trimHistory (sys :: rest) = sys :: kept) ∧
    (∀ (m₀ : ChatMessage) (t : List ChatMessage),
      m₀.role ≠ strL "system" →
      (∀ m ∈ m₀ :: t, m.role ≠ strL "system") →
      MAX_HISTORY_MESSAGES < (m₀ :: t).length →
      ∃ dropped kept, m₀ :: t = dropped ++ kept ∧
        kept.length = MAX_HISTORY_MESSAGES ∧
        trimHistory (m₀ :: t) = kept) ∧
    (∀ (sys : ChatMessage) (rest : List ChatMessage),
      sys.role = strL "system" → rest.length ≤ MAX_HISTORY_MESSAGES →
      trimHistory (sys :: rest) = sys :: rest) ∧
    (∀ (m₀ : ChatMessage) (t : List ChatMessage),
      m₀.role ≠ strL "system" → (m₀ :: t).length ≤ MAX_HISTORY_MESSAGES →
      trimHistory (m₀ :: t) = m₀ :: t) := by
  refine ⟨?_, ?_, ?_, ?_⟩
  · intro sys rest hsys _hrest hlen
    refine ⟨rest.take (rest.length - MAX_HISTORY_MESSAGES),
      rest.drop (rest.length - MAX_HISTORY_MESSAGES),
      (List.take_append_drop _ rest).symm, by simp; omega, ?_⟩
    exact trimHistory_sys_over (by simp [hsys]) hlen
  · intro m₀ t hrole _hall hlen
    refine ⟨(m₀ :: t).take ((m₀ :: t).length - MAX_HISTORY_MESSAGES),
      (m₀ :: t).drop ((m₀ :: t).length - MAX_HISTORY_MESSAGES),
      (List.take_append_drop _ _).symm, ?_, ?_⟩
    · simp only [List.length_drop]
      omega
    · exact trimHistory_nosys_over (by simp [hrole]) hlen
  · intro sys rest hsys hlen
    exact trimHistory_sys_under (by simp [hsys]) hlen
  · intro m₀ t hrole hlen
    exact trimHistory_nosys_under (by simp [hrole]) hlen

/-- **C6 witness**: a leading system message plus 60 non-system messages
leaves exactly 1 + 50 messages with the system message first. -/
theorem trim_history_spec_witness :
    ∃ dropped kept,
      List.replicate 60 (ChatMessage.user []) = dropped ++ kept ∧
      kept.length = MAX_HISTORY_MESSAGES ∧
      trimHistory (ChatMessage.system [] :: List.replicate 60 (ChatMessage.user [])) =
        ChatMessage.system [] :: kept :=
  trim_history_spec.1 (ChatMessage.system []) (List.replicate 60 (ChatMessage.user []))
    rfl (by decide) (by decide)

/-! ### C7, C10 — file patch -/

/-- Arguments object for `file_patch` with the three required string
fields. -/
def patchArgs (path old new : Str) : Json :=
  .obj [(strL "path", .str path), (strL "old_string", .str old),
        (strL "new_string", .str new)]

theorem patchArgs_path (path old new : Str) :
    (patchArgs path old new).getStr (strL "path") = some path := rfl

theorem patchArgs_old (path old new : Str) :
    (patchArgs path old new).getStr (strL "old_string") = some old := rfl

theorem patchArgs_new (path old new : Str) :
    (patchArgs path old new).getStr (strL "new_string") = some new := rfl

/-- **C7**: on the happy path (policy allows, path resolves, read and write
succeed), `file_patch` fails with a `"not found"` error on zero matches,
fails reporting the occurrence count on two-or-more matches, and on a
unique match succeeds writing the content with exactly that occurrence
replaced. -/
theorem file_patch_unique_match_spec (env : PatchEnv)
    (path old new content : Str)
    (hpa : env.pathAllowed = true) (hro : env.resolveOk = true)
    (hra : env.resolvedAllowed = true) (hrd : env.readResult = some content)
    (hwo : env.writeOk = true) :
    (countMatches content old = 0 →
      filePatchExecute env (patchArgs path old new) =
        .ok (⟨false, [], some (strL "old_string not found in file")⟩, none) ∧
      containsSub (strL "old_string not found in file") (strL "not found") = true) ∧
    (2 ≤ countMatches content old →
      ∃ err, filePatchExecute env (patchArgs path old new) =
          .ok (⟨false, [], some err⟩, none) ∧
        containsSub err (natToStr (countMatches content old)) = true) ∧
    (countMatches content old = 1 →
      ∃ res pre post,
        filePatchExecute env (patchArgs path old new) =
          .ok (res, some (pre ++ new ++ post)) ∧
        res.success = true ∧ content = pre ++ old ++ post) := by
  have hred : filePatchExecute env (patchArgs path old new) =
      (let count := countMatches content old
       if count = 0 then
         .ok (⟨false, [], some (strL "old_string not found in file")⟩, none)
       else if count > 1 then
         .ok (⟨false, [],
           some (strL "old_string found " ++ natToStr count ++
             strL " times — must match exactly once. Provide more context.")⟩,
           none)
       else
         .ok (⟨true, strL "Patched " ++ path ++ strL " (" ++
           natToStr (replaceFirst content old new).length ++ strL " bytes)",
           none⟩, some (replaceFirst content old new))) := by
    unfold filePatchExecute
    simp only [patchArgs_path, patchArgs_old, patchArgs_new, hpa, hro, hra, hrd,
      hwo, not_true, if_false, ite_false]
    simp
  refine ⟨?_, ?_, ?_⟩
  · intro h0
    rw [hred]
    simp only [h0, if_pos rfl]
    exact ⟨rfl, by
      have := containsSub_of_middle (strL "old_string ") (strL "not found")
        (strL " in file")
      simpa using this⟩
  · intro h2
    rw [hred]
    simp only []
    rw [if_neg (by omega), if_pos (by omega)]
    exact ⟨strL "old_string found " ++ natToStr (countMatches content old) ++
        strL " times — must match exactly once. Provide more context.", rfl,
      containsSub_of_middle _ _ _⟩
  · intro h1
    rw [hred]
    simp only []
    rw [if_neg (by omega), if_neg (by omega)]
    obtain ⟨pre, post, hdec, hrep⟩ :=
      @replaceFirst_of_count_one content old new h1
    exact ⟨_, pre, post, by rw [hrep], rfl, hdec⟩

/-- **C7 witness**: `"aaa bbb aaa"` with `old_string="aaa"` fails mentioning
a match count of 2; `"hello world"` with `old_string="hello"`,
`new_string="goodbye"` succeeds. -/
theorem file_patch_unique_match_spec_witness :
    (∃ err, filePatchExecute ⟨true, true, [], true, [], some (strL "aaa bbb aaa"), [], true, []⟩
        (patchArgs (strL "test.txt") (strL "aaa") (strL "ccc")) =
        .ok (⟨false, [], some err⟩, none) ∧
      containsSub err (natToStr (countMatches (strL "aaa bbb aaa") (strL "aaa"))) = true) ∧
    (∃ res pre post,
      filePatchExecute ⟨true, true, [], true, [], some (strL "hello world"), [], true, []⟩
          (patchArgs (strL "test.txt") (strL "hello") (strL "goodbye")) =
        .ok (res, some (pre ++ strL "goodbye" ++ post)) ∧
      res.success = true ∧ strL "hello world" = pre ++ strL "hello" ++ post) :=
  ⟨(file_patch_unique_match_spec _ (strL "test.txt") (strL "aaa") (strL "ccc")
      (strL "aaa bbb aaa") rfl rfl rfl rfl rfl).2.1 (by decide),
   (file_patch_unique_match_spec _ (strL "test.txt") (strL "hello") (strL "goodbye")
      (strL "hello world") rfl rfl rfl rfl rfl).2.2 (by decide)⟩

/-- **C10**: `file_patch` writes the file only on the unique-match success
path: whenever an execution returns with a write recorded, the security
checks passed, the path resolved, the read succeeded, and `old_string`
matched exactly once — so every failing execution (denied path, unresolved
path, read failure, zero or multiple matches) leaves the file untouched. -/
theorem file_patch_no_write_on_failure (env : PatchEnv) (args : Json)
    (res : ToolResult) (w : Option Str)
    (h : filePatchExecute env args = .ok (res, w)) (hw : w.isSome = true) :
    env.pathAllowed = true ∧ env.resolveOk = true ∧ env.resolvedAllowed = true ∧
    ∃ content old, env.readResult = some content ∧
      args.getStr (strL "old_string") = some old ∧
      countMatches content old = 1 := by
  unfold filePatchExecute at h
  iterate 12 ((all_goals (try dsimp only [] at h)); all_goals (try split at h))
  all_goals (try (cases h))
  all_goals (try (simp at hw))
  all_goals rename_i hpa hro hra xread contentv heqread hc0 hc1 hwr
  all_goals exact ⟨by simpa using hpa, by simpa using hro, by simpa using hra,
    contentv, _, heqread, by assumption, by omega⟩

/-- **C10 witness**: the unique-match success path at a concrete input. -/
theorem file_patch_no_write_on_failure_witness :
    (⟨true, true, [], true, [], some (strL "hello world"), [], true, []⟩ :
      PatchEnv).pathAllowed = true ∧
    (⟨true, true, [], true, [], some (strL "hello world"), [], true, []⟩ :
      PatchEnv).resolveOk = true ∧
    (⟨true, true, [], true, [], some (strL "hello world"), [], true, []⟩ :
      PatchEnv).resolvedAllowed = true ∧
    ∃ content old,
      (⟨true, true, [], true, [], some (strL "hello world"), [], true, []⟩ :
        PatchEnv).readResult = some content ∧
      (patchArgs (strL "test.txt") (strL "hello") (strL "goodbye")).getStr
        (strL "old_string") = some old ∧
      countMatches content old = 1 :=
  file_patch_no_write_on_failure _
    (patchArgs (strL "test.txt") (strL "hello") (strL "goodbye"))
    ⟨true, strL "Patched test.txt (13 bytes)", none⟩ (some (strL "goodbye world"))
    (by decide) (by decide)

/-! ### C8 — lazy credential checks -/

/-- **C8**: all three provider constructors are total (constructing without
a credential never fails — the models are plain functions into the provider
state), and calling `chat` / `chat_with_system` on a provider constructed
without a credential returns the credential error having issued zero HTTP
requests, for every oracle — the check precedes any request. -/
theorem provider_credential_lazy :
    (anthropicNew none).credential = none ∧
    (openAiNew none).api_key = none ∧
    (openRouterNew none).api_key = none ∧
    (∀ (hasTracker : Bool) (sys : Option Str) (msg model : Str) (net : HttpOutcome),
      anthropicChatWithSystem (anthropicNew none) hasTracker sys msg model net =
        (0, .error (strL "Anthropic credentials not set. Set ANTHROPIC_API_KEY or ANTHROPIC_OAUTH_TOKEN (setup-token)."), []) ∧
      anthropicChat (anthropicNew none) hasTracker msg model net =
        (0, .error (strL "Anthropic credentials not set. Set ANTHROPIC_API_KEY or ANTHROPIC_OAUTH_TOKEN (setup-token)."), []) ∧
      openAiChatWithSystem (openAiNew none) hasTracker sys msg model net =
        (0, .error (strL "OpenAI API key not set. Set OPENAI_API_KEY or edit config.toml."), []) ∧
      openAiChat (openAiNew none) hasTracker msg model net =
        (0, .error (strL "OpenAI API key not set. Set OPENAI_API_KEY or edit config.toml."), []) ∧
      openRouterChatWithSystem (openRouterNew none) hasTracker sys msg model net =
        (0, .error (strL "OpenRouter API key not set. Run `tinyclaw onboard` or set OPENROUTER_API_KEY env var."), []) ∧
      openRouterChat (openRouterNew none) hasTracker msg model net =
        (0, .error (strL "OpenRouter API key not set. Run `tinyclaw onboard` or set OPENROUTER_API_KEY env var."), [])) :=
  ⟨rfl, rfl, rfl, fun _ _ _ _ _ => ⟨rfl, rfl, rfl, rfl, rfl, rfl⟩⟩

/-! ### C2 — empty streams -/

/-- Guarded invariant transfer through a drain: steps preserve the done
flag, and `step`/`onStop` are only ever applied to non-done states. -/
theorem drain_inv_guarded {P : LineProc σ} {isDone : σ → Bool} {Inv : σ → Prop}
    (hdone : ∀ s l, isDone (P.step s l) = isDone s)
    (hstep : ∀ s l, isDone s = false → Inv s → Inv (P.step s l))
    (hstop : ∀ s l, isDone s = false → Inv s → Inv (P.onStop s l)) :
    ∀ {b : Str} {s : σ} {b₁ : Str} {s₁ : σ} {f : Bool},
      drain P b s = (b₁, s₁, f) → isDone s = false → Inv s → Inv s₁ := by
  intro b
  induction' hn : b.length using Nat.strong_induction_on with n ih generalizing b
  intro s b₁ s₁ f h hd hInv
  cases hs : splitNl b with
  | none =>
    rw [drain_none hs] at h
    cases h
    exact hInv
  | some p =>
    obtain ⟨l, r⟩ := p
    have hr := splitNl_length hs
    by_cases hst : P.isStop l = true
    · rw [drain_some_stop hs hst] at h
      cases h
      exact hstop _ _ hd hInv
    · have hst' : P.isStop l = false := by simpa using hst
      rw [drain_some_go hs hst'] at h
      exact ih r.length (by omega) rfl h (by rw [hdone]; exact hd)
        (hstep _ _ hd hInv)

theorem runChunksStop_inv {P : LineProc σ} {isDone : σ → Bool} {I : σ → Prop}
    (hdone : ∀ s l, isDone (P.step s l) = isDone s)
    (hstep : ∀ s l, isDone s = false → I s → I (P.step s l))
    (hstop : ∀ s l, isDone s = false → I s → I (P.onStop s l))
    (chunks : List Str) (s0 : σ) (h0 : I s0) :
    I (runChunksStop P isDone s0 chunks).2 := by
  suffices H : ∀ (st : Str × σ), I st.2 →
      I (chunks.foldl (feedStop P isDone) st).2 by
    exact H ([], s0) h0
  induction chunks with
  | nil => intro st h; exact h
  | cons c cs ih =>
    intro st h
    rw [List.foldl_cons]
    apply ih
    unfold feedStop
    by_cases hd : isDone st.2 = true
    · rw [if_pos hd]
      exact h
    · have hd' : isDone st.2 = false := by simpa using hd
      rw [if_neg (by simp [hd'])]
      rcases hf : drain P (st.1 ++ c) st.2 with ⟨b₁, s₁, f⟩
      exact drain_inv_guarded hdone hstep hstop hf hd' h

theorem orApplyChoice_done (acc : OrState) (c : Option (Option Str)) :
    (orApplyChoice acc c).done = acc.done := by
  unfold orApplyChoice
  repeat' split
  all_goals rfl

theorem foldl_orApplyChoice_done (cs : List (Option (Option Str))) :
    ∀ st : OrState, (cs.foldl orApplyChoice st).done = st.done := by
  induction cs with
  | nil => intro st; rfl
  | cons c cs ih =>
    intro st
    rw [List.foldl_cons, ih, orApplyChoice_done]

theorem orLineStep_done (st : OrState) (l : Str) :
    (orLineStep st l).done = st.done := by
  unfold orLineStep
  dsimp only []
  repeat' split
  all_goals try rfl
  all_goals rw [foldl_orApplyChoice_done]
  all_goals rfl

theorem tokensOf_orTrackUsage (hasTracker : Bool) (tr : List Action)
    (u : Option TokenUsage) :
    tokensOf (orTrackUsage hasTracker tr u) = tokensOf tr := by
  unfold orTrackUsage
  split
  · simp [tokensOf_append, tokensOf]
  · rfl

/-- The OpenRouter loop invariant used for the empty-stream claim. -/
def InvOr (st : OrState) : Prop :=
  st.fullResponse = (tokensOf st.trace).flatten ∧
  (∀ t, st.done = some (.ok t) → tokensOf st.trace ≠ []) ∧
  (∀ e, st.done = some (.error e) →
    e = strL "No response from OpenRouter stream")

theorem orApplyChoice_align {acc : OrState} (c : Option (Option Str))
    (h : acc.fullResponse = (tokensOf acc.trace).flatten) :
    (orApplyChoice acc c).fullResponse =
      (tokensOf (orApplyChoice acc c).trace).flatten := by
  unfold orApplyChoice
  repeat' split
  all_goals simp [tokensOf_append, tokensOf, h]

theorem foldl_orApplyChoice_align (cs : List (Option (Option Str)))
    {st : OrState} (h : st.fullResponse = (tokensOf st.trace).flatten) :
    (cs.foldl orApplyChoice st).fullResponse =
      (tokensOf (cs.foldl orApplyChoice st).trace).flatten := by
  induction cs generalizing st with
  | nil => exact h
  | cons c cs ih =>
    rw [List.foldl_cons]
    exact ih (orApplyChoice_align c h)

theorem orLineStep_align {st : OrState} (l : Str)
    (h : st.fullResponse = (tokensOf st.trace).flatten) :
    (orLineStep st l).fullResponse =
      (tokensOf (orLineStep st l).trace).flatten := by
  unfold orLineStep
  dsimp only []
  repeat' split
  all_goals try exact h
  all_goals exact foldl_orApplyChoice_align _ h

theorem orLineStep_inv (st : OrState) (l : Str) (hd : st.done.isSome = false)
    (h : InvOr st) : InvOr (orLineStep st l) := by
  obtain ⟨h1, _, _⟩ := h
  refine ⟨orLineStep_align l h1, ?_, ?_⟩
  · intro t ht
    rw [orLineStep_done] at ht
    simp only [Option.isSome] at hd
    split at hd
    · cases hd
    · rename_i hnone
      rw [hnone] at ht
      cases ht
  · intro e he
    rw [orLineStep_done] at he
    simp only [Option.isSome] at hd
    split at hd
    · cases hd
    · rename_i hnone
      rw [hnone] at he
      cases he

theorem orOnStop_inv (hasTracker : Bool) (st : OrState) (l : Str)
    (h : InvOr st) : InvOr (orOnStop hasTracker st l) := by
  obtain ⟨h1, _, _⟩ := h
  unfold orOnStop
  by_cases hemp : st.fullResponse.isEmpty = true
  · rw [if_pos hemp]
    refine ⟨by simpa [tokensOf_orTrackUsage] using h1, ?_, ?_⟩
    · intro t ht
      simp at ht
    · intro e he
      simp only [Option.some.injEq, Except.error.injEq] at he
      exact he.symm
  · rw [if_neg hemp]
    refine ⟨by simpa [tokensOf_orTrackUsage] using h1, ?_, ?_⟩
    · intro t _
      rw [tokensOf_orTrackUsage]
      intro hc
      rw [hc] at h1
      simp at h1
      rw [h1] at hemp
      simp [List.isEmpty] at hemp
    · intro e he
      simp at he

/-- **C2 (amended)**: OpenRouter's streaming call fails with the
empty-response error whenever the stream terminates having produced no text
tokens; Anthropic's streaming call instead returns `Ok` (with the empty
aggregated text) unconditionally. -/
theorem stream_empty_response_spec (hasTracker : Bool) :
    (∀ chunks : List Str,
      tokensOf (openrouterStreamBody hasTracker chunks).2 = [] →
      (openrouterStreamBody hasTracker chunks).1 =
        .error (strL "No response from OpenRouter stream")) ∧
    (∀ chunks : List Str, ∃ t,
      (anthropicStreamBody hasTracker chunks).1 = .ok t) := by
  constructor
  · intro chunks htok
    have hInv : InvOr (runChunksStop (orProc hasTracker) orDone
        ⟨[], none, [], none⟩ chunks).2 := by
      apply runChunksStop_inv
      · intro s l
        show orDone (orLineStep s l) = orDone s
        simp [orDone, orLineStep_done]
      · intro s l hd h
        exact orLineStep_inv s l (by simpa [orDone] using hd) h
      · intro s l hd h
        exact orOnStop_inv hasTracker s l h
      · refine ⟨rfl, ?_, ?_⟩
        · intro t ht
          cases ht
        · intro e he
          cases he
    unfold openrouterStreamBody at htok ⊢
    dsimp only [] at htok ⊢
    obtain ⟨h1, h2, h3⟩ := hInv
    cases hdone : (runChunksStop (orProc hasTracker) orDone
        ⟨[], none, [], none⟩ chunks).2.done with
    | some r =>
      cases r with
      | ok t =>
        exfalso
        rw [hdone] at htok
        dsimp only [] at htok
        exact h2 t hdone htok
      | error e =>
        dsimp only []
        rw [h3 e hdone]
    | none =>
      rw [hdone] at htok
      dsimp only [] at htok
      rw [tokensOf_orTrackUsage] at htok
      rw [htok] at h1
      simp only [List.flatten_nil] at h1
      dsimp only []
      rw [h1]
      simp [List.isEmpty]
  · intro chunks
    exact ⟨_, rfl⟩

/-- **C2 witness**: the empty OpenRouter stream produces no tokens and the
call fails with the empty-response error. -/
theorem stream_empty_response_spec_witness :
    (openrouterStreamBody true []).1 =
      .error (strL "No response from OpenRouter stream") :=
  (stream_empty_response_spec true).1 [] (by decide)

/-- **C2 counterexample**: Anthropic's streaming parser, fed a stream that
terminates with no tokens at all, returns `Ok("")` — it does not fail, so
the claim as stated (covering both providers) is false on the code
(anthropic.rs:302 returns `Ok(full_text)` unconditionally). -/
theorem anthropic_empty_stream_counterexample :
    anthropicStreamBody true [] = (.ok [], []) := by decide

/-! ### C9 — usage tracking timing -/

/-- The effects `anthLineStep` produces for one line, in isolation. -/
def anthLineActions (hasTracker : Bool) (rawLine : Str) : List Action :=
  (anthLineStep hasTracker ⟨[], []⟩ rawLine).trace

/-- Each Anthropic line appends its own actions to the trace: effects happen
at the line's position in the stream, never later. -/
theorem anthLineStep_trace (hasTracker : Bool) (st : AnthState) (l : Str) :
    (anthLineStep hasTracker st l).trace =
      st.trace ++ anthLineActions hasTracker l := by
  unfold anthLineActions anthLineStep
  dsimp only []
  repeat' split
  all_goals (try (cases hasTracker <;> simp [anthTrackAdd]))
  all_goals simp

theorem foldl_anthLineStep_trace (hasTracker : Bool) (lines : List Str) :
    ∀ st : AnthState,
      (lines.foldl (anthLineStep hasTracker) st).trace =
        st.trace ++ (lines.map (anthLineActions hasTracker)).flatten := by
  induction lines with
  | nil => intro st; simp
  | cons l ls ih =>
    intro st
    rw [List.foldl_cons, ih, anthLineStep_trace]
    simp

theorem orApplyChoice_tokens {st : OrState} (c : Option (Option Str))
    (h : ∀ a ∈ st.trace, isTokenAction a = true) :
    ∀ a ∈ (orApplyChoice st c).trace, isTokenAction a = true := by
  unfold orApplyChoice
  repeat' split
  all_goals try exact h
  intro a ha
  rcases List.mem_append.mp ha with h' | h'
  · exact h a h'
  · rcases List.mem_singleton.mp h' with rfl
    rfl

theorem foldl_orApplyChoice_tokens (cs : List (Option (Option Str))) :
    ∀ {st : OrState}, (∀ a ∈ st.trace, isTokenAction a = true) →
      ∀ a ∈ (cs.foldl orApplyChoice st).trace, isTokenAction a = true := by
  induction cs with
  | nil => intro st h; exact h
  | cons c cs ih =>
    intro st h
    rw [List.foldl_cons]
    exact ih (orApplyChoice_tokens c h)

theorem orLineStep_tokens {st : OrState} (l : Str)
    (h : ∀ a ∈ st.trace, isTokenAction a = true) :
    ∀ a ∈ (orLineStep st l).trace, isTokenAction a = true := by
  unfold orLineStep
  dsimp only []
  repeat' split
  all_goals try exact h
  all_goals exact foldl_orApplyChoice_tokens _ h

/-- Trace-shape invariant: while the loop runs, the trace holds only token
sends; once returned, at most the final element is a usage addition. -/
def InvTok (st : OrState) : Prop :=
  (st.done = none → ∀ a ∈ st.trace, isTokenAction a = true) ∧
  (∀ a ∈ st.trace.dropLast, isTokenAction a = true)

theorem orTrackUsage_dropLast (hasTracker : Bool) (tr : List Action)
    (u : Option TokenUsage) (h : ∀ a ∈ tr, isTokenAction a = true) :
    ∀ a ∈ (orTrackUsage hasTracker tr u).dropLast, isTokenAction a = true := by
  unfold orTrackUsage
  split
  · rw [List.dropLast_concat]
    exact h
  · exact fun a ha => h a ((List.dropLast_sublist _).subset ha)

/-- **C9 (amended)**: the Anthropic streaming parser folds usage metadata
into the tracker at the moment the usage-bearing event is processed — the
whole effect trace is the in-order concatenation of each line's own
actions — while the OpenRouter parser defers: it only remembers the last
usage payload and performs at most one tracker addition, as the final
action of the stream (every non-final trace element is a token send). -/
theorem usage_tracking_spec (hasTracker : Bool) (chunks : List Str) :
    (noStop (anthProc hasTracker) chunks.join →
      (anthropicStreamBody hasTracker chunks).2 =
        ((completeLines chunks.join).map (anthLineActions hasTracker)).flatten) ∧
    (∀ a ∈ (openrouterStreamBody hasTracker chunks).2.dropLast,
      isTokenAction a = true) := by
  constructor
  · intro hns
    unfold anthropicStreamBody
    dsimp only []
    rw [runChunks_join hns]
    unfold runChunks feed
    simp only [List.foldl_cons, List.foldl_nil]
    obtain ⟨b₁, hb₁⟩ := drain_of_noStop (P := anthProc hasTracker)
      (s := (⟨[], []⟩ : AnthState)) hns
    try dsimp only []
    rw [List.nil_append, hb₁]
    dsimp only []
    rw [show (anthProc hasTracker).step = anthLineStep hasTracker from rfl]
    rw [foldl_anthLineStep_trace]
    simp
  · have hInv : InvTok (runChunksStop (orProc hasTracker) orDone
        ⟨[], none, [], none⟩ chunks).2 := by
      apply runChunksStop_inv (I := InvTok)
      · intro s l
        show orDone (orLineStep s l) = orDone s
        simp [orDone, orLineStep_done]
      · intro s l hd h
        have hnone : s.done = none := by
          simpa [orDone, Option.isSome_iff_exists] using hd
        refine ⟨fun _ => orLineStep_tokens l (h.1 hnone), ?_⟩
        intro a ha
        exact orLineStep_tokens l (h.1 hnone) a ((List.dropLast_sublist _).subset ha)
      · intro s l hd h
        have hnone : s.done = none := by
          simpa [orDone, Option.isSome_iff_exists] using hd
        have htok := h.1 hnone
        show InvTok (orOnStop hasTracker s l)
        unfold orOnStop
        constructor
        · intro hcon
          split at hcon <;> cases hcon
        · split
          all_goals exact orTrackUsage_dropLast hasTracker s.trace s.lastUsage htok
      · refine ⟨?_, ?_⟩
        · intro _ a ha
          cases ha
        · intro a ha
          simp at ha
    unfold openrouterStreamBody
    dsimp only []
    obtain ⟨h1, h2⟩ := hInv
    cases hdone : (runChunksStop (orProc hasTracker) orDone
        ⟨[], none, [], none⟩ chunks).2.done with
    | some r =>
      dsimp only []
      exact h2
    | none =>
      dsimp only []
      exact orTrackUsage_dropLast hasTracker _ _ (h1 hdone)

/-- **C9 witness**: a concrete Anthropic stream with a usage event between
two delta events; the trace is exactly the per-line actions in stream
order, so the usage addition happens at its event's position. -/
theorem usage_tracking_spec_witness :
    (anthropicStreamBody true
      [strL "data: \x7b\"type\":\"content_block_delta\",\"delta\":\x7b\"text\":\"a\"\x7d\x7d\ndata: \x7b\"type\":\"message_delta\",\"usage\":\x7b\"input_tokens\":3,\"output_tokens\":4\x7d\x7d\ndata: \x7b\"type\":\"content_block_delta\",\"delta\":\x7b\"text\":\"b\"\x7d\x7d\n"]).2 =
      ((completeLines
          ([strL "data: \x7b\"type\":\"content_block_delta\",\"delta\":\x7b\"text\":\"a\"\x7d\x7d\ndata: \x7b\"type\":\"message_delta\",\"usage\":\x7b\"input_tokens\":3,\"output_tokens\":4\x7d\x7d\ndata: \x7b\"type\":\"content_block_delta\",\"delta\":\x7b\"text\":\"b\"\x7d\x7d\n"].join)).map
        (anthLineActions true)).flatten :=
  (usage_tracking_spec true _).1 (by decide)

/-- **C9 counterexample**: in an OpenRouter stream whose usage-bearing event
*precedes* the delta event, the tracker addition still happens *after* the
token send (at stream end), so mid-stream usage is deferred, contradicting
the claim that it is added before any further stream events are consumed. -/
theorem openrouter_usage_deferred_counterexample :
    openrouterStreamBody true
      [strL "data: \x7b\"choices\":[],\"usage\":\x7b\"prompt_tokens\":1,\"completion_tokens\":2,\"total_tokens\":3\x7d\x7d\ndata: \x7b\"choices\":[\x7b\"delta\":\x7b\"content\":\"hi\"\x7d\x7d]\x7d\n"] =
      (.ok (strL "hi"), [.token (strL "hi"), .usage ⟨1, 2, 3⟩]) ∧
    ([Action.token (strL "hi"), .usage ⟨1, 2, 3⟩] ≠
      [.usage ⟨1, 2, 3⟩, .token (strL "hi")]) := by
  constructor
  · decide
  · decide

/-! ### C1 — SSE chunk-boundary invariance -/

theorem anthropicStreamBody_join (hasTracker : Bool) (chunks : List Str)
    (h : noStop (anthProc hasTracker) chunks.join) :
    anthropicStreamBody hasTracker chunks =
      anthropicStreamBody hasTracker [chunks.join] := by
  unfold anthropicStreamBody
  rw [runChunks_join h]

theorem orOnStop_done (hasTracker : Bool) (s : OrState) (l : Str) :
    orDone (orOnStop hasTracker s l) = true := by
  unfold orDone orOnStop
  split
  all_goals rfl

theorem openrouterStreamBody_join (hasTracker : Bool) (chunks : List Str) :
    openrouterStreamBody hasTracker chunks =
      openrouterStreamBody hasTracker [chunks.join] := by
  unfold openrouterStreamBody
  rw [runChunksStop_join (P := orProc hasTracker) (d := orDone)
    (fun s l => by
      show orDone (orLineStep s l) = orDone s
      simp [orDone, orLineStep_done])
    (fun s l => orOnStop_done hasTracker s l) chunks ⟨[], none, [], none⟩ rfl]

/-- **C1 (amended)**: SSE parsing is chunk-boundary-invariant at character
boundaries: whenever the per-chunk lossy UTF-8 decoding commutes with
concatenation (exactly the chunkings that do not split a multi-byte scalar),
the chunked run and the single-chunk run produce identical results and
identical effect traces — for OpenRouter unconditionally, for Anthropic
provided no `data: [DONE]` line occurs in the stream (its `[DONE]` handling
only pauses line draining until the next chunk arrives, so a `[DONE]`
followed by further events is *not* chunking-invariant; Anthropic's own
protocol never sends one). -/
theorem sse_chunk_invariance (hasTracker : Bool) (bchunks : List (List Nat))
    (hdec : utf8Lossy bchunks.join = (bchunks.map utf8Lossy).join) :
    (noStop (anthProc hasTracker) (bchunks.map utf8Lossy).join →
      anthropicStreamBytes hasTracker bchunks =
        anthropicStreamBytes hasTracker [bchunks.join]) ∧
    openrouterStreamBytes hasTracker bchunks =
      openrouterStreamBytes hasTracker [bchunks.join] := by
  constructor
  · intro hns
    unfold anthropicStreamBytes
    rw [anthropicStreamBody_join hasTracker _ hns]
    rw [show [bchunks.join].map utf8Lossy = [utf8Lossy bchunks.join] from rfl]
    rw [hdec]
  · unfold openrouterStreamBytes
    rw [openrouterStreamBody_join hasTracker (bchunks.map utf8Lossy)]
    rw [show [bchunks.join].map utf8Lossy = [utf8Lossy bchunks.join] from rfl]
    rw [hdec]

def asciiBytes (s : String) : List Nat := s.toList.map Char.toNat

/-- **C1 witness**: a concrete two-chunk delivery split mid-line (but at a
character boundary) equals the single-chunk delivery, for both providers. -/
theorem sse_chunk_invariance_witness :
    anthropicStreamBytes true
        [asciiBytes "data: \x7b\"type\":\"content_block_delta\",\"de",
         asciiBytes "lta\":\x7b\"text\":\"hi\"\x7d\x7d\n"] =
      anthropicStreamBytes true
        [[asciiBytes "data: \x7b\"type\":\"content_block_delta\",\"de",
          asciiBytes "lta\":\x7b\"text\":\"hi\"\x7d\x7d\n"].join] ∧
    openrouterStreamBytes true
        [asciiBytes "data: \x7b\"choices\":[\x7b\"delta\"",
         asciiBytes ":\x7b\"content\":\"hi\"\x7d\x7d]\x7d\n"] =
      openrouterStreamBytes true
        [[asciiBytes "data: \x7b\"choices\":[\x7b\"delta\"",
          asciiBytes ":\x7b\"content\":\"hi\"\x7d\x7d]\x7d\n"].join] :=
  ⟨(sse_chunk_invariance true _ (by decide)).1 (by decide),
   (sse_chunk_invariance true _ (by decide)).2⟩

/-- **C1 counterexample**: splitting the same well-formed OpenRouter stream
at a byte offset *inside* the two-byte UTF-8 scalar `é` (0xC3 0xA9) changes
the delivered text: each chunk is decoded lossily in isolation
(openrouter.rs:267), so the split scalar becomes two U+FFFD replacement
characters — the aggregated text and token sequence differ from the
single-chunk delivery, refuting invariance at arbitrary byte offsets. -/
theorem sse_byte_split_counterexample :
    openrouterStreamBytes true
        [asciiBytes "data: \x7b\"choices\":[\x7b\"delta\":\x7b\"content\":\"" ++ [0xC3],
         [0xA9] ++ asciiBytes "\"\x7d\x7d]\x7d\ndata: [DONE]\n"] ≠
      openrouterStreamBytes true
        [asciiBytes "data: \x7b\"choices\":[\x7b\"delta\":\x7b\"content\":\"" ++ [0xC3] ++
          ([0xA9] ++ asciiBytes "\"\x7d\x7d]\x7d\ndata: [DONE]\n")] := by
  decide

/-! ### C5 — iteration limit -/

/-- One tool-using iteration's effect on the history: append the assistant
response and the user-role tool-results message. -/
def agentIter (provider : List ChatMessage → Str) (tools : List ToolDef)
    (h : List ChatMessage) : List ChatMessage :=
  h ++ [ChatMessage.assistant (provider h),
        ChatMessage.user (strL "[Tool results]\n" ++
          toolResultsBlock tools (parseToolCalls (provider h)).2)]

/-- **C5**: with a provider whose every response parses to at least one tool
call, `agent_turn_with_events` makes exactly `MAX_TOOL_ITERATIONS` (10)
model calls, fails with the iteration-limit error, and the final history is
the initial history extended, in order, with the assistant response and the
user-role tool-results message of every completed iteration. -/
theorem agent_turn_iteration_limit (provider : List ChatMessage → Str)
    (tools : List ToolDef) (history : List ChatMessage)
    (h : ∀ hist, ((parseToolCalls (provider hist)).2).isEmpty = false) :
    agentTurnWithEvents provider tools history =
      ((agentIter provider tools)^[MAX_TOOL_ITERATIONS] history,
       .error (strL "Agent exceeded maximum tool iterations (10)"),
       MAX_TOOL_ITERATIONS) := by
  suffices H : ∀ (fuel : Nat) (hist : List ChatMessage),
      agentTurnGo provider tools hist fuel =
        ((agentIter provider tools)^[fuel] hist,
         .error (strL "Agent exceeded maximum tool iterations (10)"), fuel) by
    exact H MAX_TOOL_ITERATIONS history
  intro fuel
  induction fuel with
  | zero => intro hist; rfl
  | succ n ih =>
    intro hist
    unfold agentTurnGo
    rw [if_neg (by simp [h hist])]
    dsimp only []
    have hh := ih (agentIter provider tools hist)
    unfold agentIter at hh
    rw [hh, Function.iterate_succ_apply]
    rfl

/-- **C5 witness**: a scripted provider that always returns one tool-call
block hits the limit after exactly 10 model calls. -/
theorem agent_turn_iteration_limit_witness :
    agentTurnWithEvents
        (fun _ => strL "<tool_call>\x7b\"name\":\"x\",\"arguments\":\x7b\x7d\x7d</tool_call>")
        [] [] =
      ((agentIter
          (fun _ => strL "<tool_call>\x7b\"name\":\"x\",\"arguments\":\x7b\x7d\x7d</tool_call>")
          [])^[MAX_TOOL_ITERATIONS] [],
       .error (strL "Agent exceeded maximum tool iterations (10)"),
       MAX_TOOL_ITERATIONS) :=
  agent_turn_iteration_limit _ [] [] (fun _ => by decide)

/-! ### C4 — unterminated tool-call marker -/

/-- **C4 (amended)**: a `<tool_call>` start marker with no matching end
marker halts parsing — no calls are produced and scanning stops at the
marker — and the *entire* current remainder (marker included) is pushed as
a final narrative part. Because the free text before the marker was
already pushed as its own part, it reappears inside that trailing part:
the narrative is `trim pre` followed by `trim (pre ++ marker ++ post)`
joined by a newline (or just the latter when `pre` trims to empty), not a
once-only concatenation of the free-text segments. -/
theorem unterminated_marker_spec (pre post : Str)
    (h1 : findSub (pre ++ toolCallStart ++ post) toolCallStart = some pre.length)
    (h2 : findSub (toolCallStart ++ post) toolCallEnd = none) :
    parseToolCalls (pre ++ toolCallStart ++ post) =
      ((if (trim pre).isEmpty then trim (pre ++ toolCallStart ++ post)
        else trim pre ++ '\n' :: trim (pre ++ toolCallStart ++ post)), []) := by
  have hassoc : pre ++ toolCallStart ++ post = pre ++ (toolCallStart ++ post) :=
    List.append_assoc _ _ _
  have hdrop : (pre ++ toolCallStart ++ post).drop pre.length =
      toolCallStart ++ post := by
    rw [hassoc]
    exact List.drop_left _ _
  have htake : (pre ++ toolCallStart ++ post).take pre.length = pre := by
    rw [hassoc]
    exact List.take_left _ _
  have hlt : '<' ∈ pre ++ toolCallStart ++ post := by
    rw [List.mem_append]
    left
    rw [List.mem_append]
    right
    decide
  have htr : (trim (pre ++ toolCallStart ++ post)).isEmpty = false :=
    trim_not_empty hlt (by decide)
  unfold parseToolCalls
  rw [parseToolCallsGo_unterminated h1 (by rw [hdrop]; exact h2)]
  rw [htake]
  dsimp only []
  rw [if_neg (by simp only [htr]; decide)]
  by_cases hp : (trim pre).isEmpty
  · rw [if_pos hp, if_pos hp]
    simp [List.intercalate]
  · rw [if_neg hp, if_neg hp]
    simp [List.intercalate, List.intersperse]

/-- **C4 witness**: `"hello "` before an unterminated marker followed by
`"xyz"` satisfies the marker hypotheses, and the theorem's conclusion
evaluates on it. -/
theorem unterminated_marker_spec_witness :
    parseToolCalls (strL "hello " ++ toolCallStart ++ strL "xyz") =
      ((if (trim (strL "hello ")).isEmpty then
          trim (strL "hello " ++ toolCallStart ++ strL "xyz")
        else trim (strL "hello ") ++ '\n' ::
          trim (strL "hello " ++ toolCallStart ++ strL "xyz")), []) :=
  unterminated_marker_spec (strL "hello ") (strL "xyz") (by decide) (by decide)

/-- **C4 counterexample**: on `"hello <tool_call>xyz"` the free-text
segment `"hello"` does not appear exactly once in the narrative: the
narrative is `"hello\nhello <tool_call>xyz"`, in which `"hello"` occurs
twice. -/
theorem unterminated_marker_counterexample :
    (parseToolCalls (strL "hello <tool_call>xyz")).1 =
      strL "hello\nhello <tool_call>xyz" ∧
    (parseToolCalls (strL "hello <tool_call>xyz")).2.isEmpty = true ∧
    countMatches (parseToolCalls (strL "hello <tool_call>xyz")).1
      (strL "hello") = 2 := by
  decide

/-! ### C3 — tool-call block extraction -/

/-- A tool-call block as emitted by the model: the payload `b` enclosed in
the `<tool_call>`/`</tool_call>` markers. -/
def toolCallBlock (b : Str) : Str := toolCallStart ++ b ++ toolCallEnd

theorem parseToolCallsGo_blocks :
    ∀ bs : List Str,
      (∀ b ∈ bs, findSub (toolCallBlock b) toolCallEnd = some (11 + b.length)) →
      ∀ calls : List ParsedToolCall,
        parseToolCallsGo (bs.map toolCallBlock).flatten [] calls =
          ([], calls ++
            bs.filterMap (fun b => (jsonParse (trim b)).map mkParsedCall)) := by
  intro bs
  induction bs with
  | nil =>
    intro _ calls
    rw [show ((([] : List Str).map toolCallBlock).flatten) = ([] : Str) from rfl]
    rw [parseToolCallsGo_none (by decide)]
    rw [if_pos (show ((trim ([] : Str)).isEmpty = true) from rfl)]
    simp
  | cons b bs ih =>
    intro h calls
    have hb := h b (List.mem_cons_self b bs)
    have hrest : ∀ x ∈ bs, findSub (toolCallBlock x) toolCallEnd =
        some (11 + x.length) :=
      fun x hx => h x (List.mem_cons_of_mem b hx)
    have hrem : ((b :: bs).map toolCallBlock).flatten =
        toolCallBlock b ++ (bs.map toolCallBlock).flatten := by
      simp
    have hshape : toolCallBlock b ++ (bs.map toolCallBlock).flatten =
        toolCallStart ++ (b ++ (toolCallEnd ++ (bs.map toolCallBlock).flatten)) := by
      simp [toolCallBlock, List.append_assoc]
    have hs : findSub (toolCallBlock b ++ (bs.map toolCallBlock).flatten)
        toolCallStart = some 0 := by
      rw [hshape]
      exact findSub_prefix
    have he : findSub ((toolCallBlock b ++ (bs.map toolCallBlock).flatten).drop 0)
        toolCallEnd = some (11 + b.length) := by
      rw [List.drop_zero]
      exact findSub_append_of_findSub _ hb
    rw [hrem, parseToolCallsGo_step hs he]
    rw [show (toolCallBlock b ++ (bs.map toolCallBlock).flatten).take 0 =
      ([] : Str) from rfl]
    rw [if_pos (show ((trim ([] : Str)).isEmpty = true) from rfl)]
    have hdrop11 : (toolCallBlock b ++ (bs.map toolCallBlock).flatten).drop (0 + 11) =
        b ++ (toolCallEnd ++ (bs.map toolCallBlock).flatten) := by
      rw [hshape, show (0 + 11 : Nat) = toolCallStart.length from by decide]
      exact List.drop_left _ _
    have hinner : ((toolCallBlock b ++ (bs.map toolCallBlock).flatten).drop
        (0 + 11)).take (11 + b.length - 11) = b := by
      rw [hdrop11, show 11 + b.length - 11 = b.length from by omega]
      exact List.take_left _ _
    have hdropall : (toolCallBlock b ++ (bs.map toolCallBlock).flatten).drop
        (0 + (11 + b.length) + 12) = (bs.map toolCallBlock).flatten := by
      rw [show (0 + (11 + b.length) + 12 : Nat) = (toolCallBlock b).length from by
        simp only [toolCallBlock, List.length_append]
        rw [show toolCallStart.length = 11 from rfl,
          show toolCallEnd.length = 12 from rfl]
        omega]
      exact List.drop_left _ _
    rw [hinner, hdropall]
    cases hj : jsonParse (trim b) with
    | none =>
      rw [ih hrest calls, List.filterMap_cons]
      simp [hj]
    | some v =>
      rw [ih hrest (calls ++ [mkParsedCall v]), List.filterMap_cons]
      simp [hj]

/-- **C3 (amended)**: on a response that is a concatenation of marked
blocks with no free text, where no payload contains a stray end marker,
the parsed calls are exactly the payloads whose (trimmed) text parses as
JSON, in source order — each turned into a call by `mkParsedCall`, which
defaults a missing or non-string `name` to the empty string and missing
`arguments` to the empty object — and the narrative text is empty. A
payload whose text is malformed JSON contributes no call, but a
well-formed non-object payload (no `name`/`arguments` fields) still
contributes one. -/
theorem tool_call_blocks_spec (bs : List Str)
    (h : ∀ b ∈ bs, findSub (toolCallBlock b) toolCallEnd = some (11 + b.length)) :
    parseToolCalls (bs.map toolCallBlock).flatten =
      ([], bs.filterMap (fun b => (jsonParse (trim b)).map mkParsedCall)) := by
  unfold parseToolCalls
  dsimp only []
  rw [parseToolCallsGo_blocks bs h []]
  simp [List.intercalate]

/-- **C3 witness**: two well-formed tool-call blocks and no free text
yield empty narrative text and exactly the two parsed calls in source
order. -/
theorem tool_call_blocks_spec_witness :
    parseToolCalls (([strL "\x7b\"name\":\"a\"\x7d",
        strL "\x7b\"name\":\"b\"\x7d"].map toolCallBlock).flatten) =
      ([], [strL "\x7b\"name\":\"a\"\x7d",
        strL "\x7b\"name\":\"b\"\x7d"].filterMap
          (fun b => (jsonParse (trim b)).map mkParsedCall)) :=
  tool_call_blocks_spec
    [strL "\x7b\"name\":\"a\"\x7d", strL "\x7b\"name\":\"b\"\x7d"] (by decide)

/-- **C3 counterexample**: the payload `42` is well-formed JSON but not an
object and has no `name`/`arguments` fields, yet the parser still
produces one call for it, with the name defaulted to the empty string. -/
theorem tool_call_non_object_counterexample :
    (jsonParse (strL "42")).isSome = true ∧
    (parseToolCalls (strL "<tool_call>42</tool_call>")).2.length = 1 ∧
    ((parseToolCalls (strL "<tool_call>42</tool_call>")).2.map
      (fun c => c.name)) = [[]] ∧
    (parseToolCalls (strL "<tool_call>42</tool_call>")).1 = [] := by
  decide

end Tinyclaw
